import Mathlib

/-!
Verification of the bitcoin-node repository: a shallow embedding in Lean 4 of
the byte codec, varint serialization, transaction (de)serialization, the
pay-to-public-key-hash script recognizer, proof-of-work header validation,
wallet movements, transaction assembly and the block handler of the node
action loop, together with proofs of the claimed properties.

Machine integers are modelled as Nat with explicit reduction modulo 2 ^ w at
the points where the Rust code can wrap. Byte buffers are lists of Nat; bytes
produced by the code are below 256 by construction.
-/

namespace BtcNode

/-- Value of a byte list read as a little-endian natural number. -/
def leVal : List Nat → Nat
| [] => 0
| b :: t => b + 256 * leVal t

/-- The w little-endian bytes of n, as emitted by to_le_bytes on a w-byte
machine integer (each byte reduced modulo 256). -/
def leBytes : Nat → Nat → List Nat
| 0, _ => []
| w + 1, n => n % 256 :: leBytes w (n / 256)

/-- The 4 big-endian bytes of a u32, as emitted by to_be_bytes. -/
def beBytes4 (n : Nat) : List Nat :=
  (leBytes 4 n).reverse

/-- Two-complement reading of an unsigned w-bit value as a signed integer,
mirroring iN::from_le_bytes applied to the same bytes. -/
def toSigned (w : Nat) (n : Nat) : Int :=
  if n < 2 ^ (w - 1) then (n : Int) else (n : Int) - 2 ^ w

theorem leBytes_length (w n : Nat) : (leBytes w n).length = w := by
  induction w generalizing n with
  | zero => rfl
  | succ k ih => simp [leBytes, ih]

theorem leVal_leBytes (w n : Nat) (h : n < 2 ^ (8 * w)) :
    leVal (leBytes w n) = n := by
  induction w generalizing n with
  | zero =>
    simp [leBytes, leVal]
    omega
  | succ k ih =>
    simp only [leBytes, leVal]
    rw [ih]
    · omega
    · have h2 : (8 : Nat) * (k + 1) = 8 * k + 8 := by ring
      rw [h2, pow_add] at h
      have h256 : (2 : Nat) ^ 8 = 256 := by norm_num
      rw [h256, mul_comm] at h
      exact Nat.div_lt_of_lt_mul h

theorem leVal_append (xs ys : List Nat) :
    leVal (xs ++ ys) = leVal xs + 256 ^ xs.length * leVal ys := by
  induction xs with
  | nil => simp [leVal]
  | cons b t ih =>
    simp [leVal, ih, pow_succ]
    ring

theorem leVal_lt (xs : List Nat) (h : ∀ b ∈ xs, b < 256) :
    leVal xs < 256 ^ xs.length := by
  induction xs with
  | nil => simp [leVal]
  | cons b t ih =>
    have hb : b < 256 := h b (List.mem_cons_self b t)
    have ht : leVal t < 256 ^ t.length := ih (fun x hx => h x (List.mem_cons_of_mem b hx))
    simp only [leVal, List.length_cons, pow_succ]
    calc b + 256 * leVal t < 256 + 256 * leVal t := by omega
    _ = 256 * (leVal t + 1) := by ring
    _ ≤ 256 * 256 ^ t.length := by
        have : leVal t + 1 ≤ 256 ^ t.length := ht
        exact Nat.mul_le_mul_left 256 this
    _ = 256 ^ t.length * 256 := by ring

theorem leBytes_lt (w n : Nat) : ∀ b ∈ leBytes w n, b < 256 := by
  induction w generalizing n with
  | zero => simp [leBytes]
  | succ k ih =>
    intro b hb
    simp only [leBytes, List.mem_cons] at hb
    rcases hb with h | h
    · omega
    · exact ih (n / 256) b h

/-- Error type of the node. The module error.rs is not under src; the
variants are modelled from the spec error taxonomy and from the uses in the
sources that are present. -/
inductive CustomError where
| SerializedBufferIsInvalid
| HeaderInvalidPoW
| WalletNotFound
| InsufficientFunds
| BlockNotFound
| Validation (msg : String)
deriving DecidableEq, Repr

/-- Cursor over an immutable byte buffer, from parser.rs. -/
structure BufferParser where
  buffer : List Nat
  pos : Nat
deriving DecidableEq, Repr

namespace BufferParser

/-- Outcome of a parser operation: a result together with the parser after
the call, mirroring a Rust method on a mutable reference. -/
abbrev PResult (α : Type) := Except CustomError α × BufferParser

/-- Sequencing of two parser operations, mirroring the question-mark
operator: on error the error propagates and the parser keeps the state it
had when the error was raised. -/
def pbind {α β : Type} (x : BufferParser → PResult α)
    (f : α → BufferParser → PResult β) (p : BufferParser) : PResult β :=
  match x p with
  | (.ok a, p1) => f a p1
  | (.error e, p1) => (.error e, p1)

/-- Remaining length of the buffer, from BufferParser::len. -/
def len (p : BufferParser) : Nat :=
  p.buffer.length - p.pos

/-- Extraction of a fixed slice, from BufferParser::extract_buffer. The
slice get returns Some exactly when the end of the span is within bounds;
on None the method returns an error before advancing pos. -/
def extract_buffer (p : BufferParser) (size : Nat) : PResult (List Nat) :=
  if p.pos + size ≤ p.buffer.length then
    (.ok ((p.buffer.drop p.pos).take size), ⟨p.buffer, p.pos + size⟩)
  else
    (.error .SerializedBufferIsInvalid, p)

/-- Little-endian extraction of an unsigned scalar of w bytes; the bodies of
extract_u8, extract_u16, extract_u32 and extract_u64 all have this shape. -/
def extract_le (w : Nat) (p : BufferParser) : PResult Nat :=
  match extract_buffer p w with
  | (.ok bytes, p1) => (.ok (leVal bytes), p1)
  | (.error e, p1) => (.error e, p1)

def extract_u8 (p : BufferParser) : PResult Nat := extract_le 1 p

def extract_u16 (p : BufferParser) : PResult Nat := extract_le 2 p

def extract_u32 (p : BufferParser) : PResult Nat := extract_le 4 p

def extract_u64 (p : BufferParser) : PResult Nat := extract_le 8 p

/-- Little-endian extraction of a signed scalar of w bytes; the bodies of
extract_i8 through extract_i64 all have this shape. -/
def extract_ile (w : Nat) (p : BufferParser) : PResult Int :=
  match extract_buffer p w with
  | (.ok bytes, p1) => (.ok (toSigned (8 * w) (leVal bytes)), p1)
  | (.error e, p1) => (.error e, p1)

def extract_i8 (p : BufferParser) : PResult Int := extract_ile 1 p

def extract_i16 (p : BufferParser) : PResult Int := extract_ile 2 p

def extract_i32 (p : BufferParser) : PResult Int := extract_ile 4 p

def extract_i64 (p : BufferParser) : PResult Int := extract_ile 8 p

/-- Compact-size varint extraction, from BufferParser::extract_varint. -/
def extract_varint (p : BufferParser) : PResult Nat :=
  pbind extract_u8 (fun first_byte p1 =>
    if first_byte = 0xFF then
      match extract_buffer p1 8 with
      | (.ok bytes, p2) => (.ok (leVal bytes), p2)
      | (.error e, p2) => (.error e, p2)
    else if first_byte = 0xFE then
      match extract_buffer p1 4 with
      | (.ok bytes, p2) => (.ok (leVal bytes), p2)
      | (.error e, p2) => (.error e, p2)
    else if first_byte = 0xFD then
      match extract_buffer p1 2 with
      | (.ok bytes, p2) => (.ok (leVal bytes), p2)
      | (.error e, p2) => (.error e, p2)
    else
      (.ok first_byte, p1)) p

/-- Big-endian extraction of a u16 from two extract_u8 calls, the building
block of extract_address. -/
def extract_be16 (p : BufferParser) : PResult Nat :=
  pbind extract_u8 (fun hi =>
    pbind extract_u8 (fun lo p2 => (.ok (256 * hi + lo), p2))) p

/-- Socket address as extracted by extract_address: eight 16-bit segments
and a port, all big-endian. -/
structure SockAddr where
  segs : List Nat
  port : Nat
deriving DecidableEq, Repr

/-- Address extraction, from BufferParser::extract_address: sixteen
extract_u8 calls pairwise combined big-endian for the IPv6 segments, then
two more for the port. -/
def extract_address (p : BufferParser) : PResult SockAddr :=
  pbind extract_be16 (fun s0 =>
    pbind extract_be16 (fun s1 =>
      pbind extract_be16 (fun s2 =>
        pbind extract_be16 (fun s3 =>
          pbind extract_be16 (fun s4 =>
            pbind extract_be16 (fun s5 =>
              pbind extract_be16 (fun s6 =>
                pbind extract_be16 (fun s7 =>
                  pbind extract_be16 (fun pt p9 =>
                    (.ok ⟨[s0, s1, s2, s3, s4, s5, s6, s7], pt⟩, p9)))))))))) p

end BufferParser

/-- Validity of a byte list as UTF-8, the acceptance condition of
String::from_utf8 used by extract_string: ASCII, and 2-, 3- and 4-byte
sequences excluding overlong forms, surrogates and values above U+10FFFF. -/
def utf8Valid : List Nat → Bool
| [] => true
| b :: rest =>
  if b < 0x80 then utf8Valid rest
  else if 0xC2 ≤ b ∧ b ≤ 0xDF then
    match rest with
    | c1 :: rest1 =>
      if 0x80 ≤ c1 ∧ c1 ≤ 0xBF then utf8Valid rest1 else false
    | [] => false
  else if 0xE0 ≤ b ∧ b ≤ 0xEF then
    match rest with
    | c1 :: c2 :: rest2 =>
      let lo1 := if b = 0xE0 then 0xA0 else 0x80
      let hi1 := if b = 0xED then 0x9F else 0xBF
      if lo1 ≤ c1 ∧ c1 ≤ hi1 ∧ 0x80 ≤ c2 ∧ c2 ≤ 0xBF then utf8Valid rest2
      else false
    | _ => false
  else if 0xF0 ≤ b ∧ b ≤ 0xF4 then
    match rest with
    | c1 :: c2 :: c3 :: rest3 =>
      let lo1 := if b = 0xF0 then 0x90 else 0x80
      let hi1 := if b = 0xF4 then 0x8F else 0xBF
      if lo1 ≤ c1 ∧ c1 ≤ hi1 ∧ 0x80 ≤ c2 ∧ c2 ≤ 0xBF ∧ 0x80 ≤ c3 ∧ c3 ≤ 0xBF
      then utf8Valid rest3
      else false
    | _ => false
  else false

namespace BufferParser

/-- String extraction, from BufferParser::extract_string: a fixed slice fed
to String::from_utf8, which fails on invalid UTF-8. The extracted value is
represented by its byte list. -/
def extract_string (p : BufferParser) (size : Nat) : PResult (List Nat) :=
  match extract_buffer p size with
  | (.ok bytes, p1) =>
    if utf8Valid bytes then (.ok bytes, p1)
    else (.error .SerializedBufferIsInvalid, p1)
  | (.error e, p1) => (.error e, p1)

end BufferParser

/-- Shortest-form varint serialization, from the VarIntSerialize impl for
usize (usize taken 64-bit, matching to_le_bytes emitting 8 bytes). -/
def to_varint_bytes (n : Nat) : List Nat :=
  if n < 0xFD then leBytes 1 n
  else if n ≤ 0xFFFF then 0xFD :: leBytes 2 n
  else if n ≤ 0xFFFFFFFF then 0xFE :: leBytes 4 n
  else 0xFF :: leBytes 8 n

namespace BufferParser

theorem extract_buffer_spec {buf : List Nat} {pos : Nat} {xs rest : List Nat}
    (hpos : pos ≤ buf.length) (hdrop : buf.drop pos = xs ++ rest) :
    extract_buffer ⟨buf, pos⟩ xs.length =
      (.ok xs, ⟨buf, pos + xs.length⟩) := by
  have hlen : buf.length - pos = xs.length + rest.length := by
    have := congrArg List.length hdrop
    simpa using this
  have hle : pos + xs.length ≤ buf.length := by omega
  unfold extract_buffer
  dsimp only
  rw [if_pos hle, hdrop, List.take_left]

theorem drop_after {buf : List Nat} {pos : Nat} {xs rest : List Nat}
    (hdrop : buf.drop pos = xs ++ rest) :
    buf.drop (pos + xs.length) = rest := by
  rw [← List.drop_drop, hdrop, List.drop_left]

theorem extract_buffer_err {buf : List Nat} {pos size : Nat}
    (h : ¬ pos + size ≤ buf.length) :
    extract_buffer ⟨buf, pos⟩ size = (.error .SerializedBufferIsInvalid, ⟨buf, pos⟩) := by
  unfold extract_buffer
  rw [if_neg h]

theorem extract_le_spec {w : Nat} {buf : List Nat} {pos : Nat} {n : Nat} {rest : List Nat}
    (hpos : pos ≤ buf.length) (hdrop : buf.drop pos = leBytes w n ++ rest)
    (hn : n < 2 ^ (8 * w)) :
    extract_le w ⟨buf, pos⟩ = (.ok n, ⟨buf, pos + w⟩) := by
  unfold extract_le
  have hb := extract_buffer_spec hpos hdrop
  rw [leBytes_length] at hb
  rw [hb]
  simp [leVal_leBytes w n hn]

theorem extract_varint_spec {buf : List Nat} {pos : Nat} {n : Nat} {rest : List Nat}
    (hpos : pos ≤ buf.length) (hdrop : buf.drop pos = to_varint_bytes n ++ rest)
    (hn : n < 2 ^ 64) :
    extract_varint ⟨buf, pos⟩ =
      (.ok n, ⟨buf, pos + (to_varint_bytes n).length⟩) := by
  unfold extract_varint pbind
  by_cases h1 : n < 0xFD
  · rw [to_varint_bytes, if_pos h1] at hdrop ⊢
    rw [extract_u8, extract_le_spec hpos hdrop (by simpa using (by omega : n < 2 ^ 8))]
    dsimp only
    rw [if_neg (by omega : ¬ n = 0xFF), if_neg (by omega : ¬ n = 0xFE),
      if_neg (by omega : ¬ n = 0xFD), leBytes_length]
  · by_cases h2 : n ≤ 0xFFFF
    · rw [to_varint_bytes, if_neg h1, if_pos h2] at hdrop ⊢
      have hdrop1 : buf.drop pos = leBytes 1 0xFD ++ (leBytes 2 n ++ rest) := by
        simpa [leBytes] using hdrop
      have hpos1 : pos + 1 ≤ buf.length := by
        have := congrArg List.length hdrop1
        simp [leBytes] at this
        omega
      have hdrop2 : buf.drop (pos + 1) = leBytes 2 n ++ rest := by
        have := drop_after hdrop1
        simpa [leBytes] using this
      have hb := extract_buffer_spec hpos1 hdrop2
      rw [leBytes_length] at hb
      rw [extract_u8, extract_le_spec hpos hdrop1 (by norm_num)]
      dsimp only
      rw [if_neg (by norm_num : ¬ (0xFD : Nat) = 0xFF),
        if_neg (by norm_num : ¬ (0xFD : Nat) = 0xFE), if_pos rfl, hb]
      have hL : (0xFD :: leBytes 2 n).length = 3 := by simp [leBytes_length]
      rw [hL]
      simp only [leVal_leBytes 2 n (by simpa using (by omega : n < 2 ^ 16))]
    · by_cases h3 : n ≤ 0xFFFFFFFF
      · rw [to_varint_bytes, if_neg h1, if_neg (by omega), if_pos h3] at hdrop ⊢
        have hdrop1 : buf.drop pos = leBytes 1 0xFE ++ (leBytes 4 n ++ rest) := by
          simpa [leBytes] using hdrop
        have hpos1 : pos + 1 ≤ buf.length := by
          have := congrArg List.length hdrop1
          simp [leBytes] at this
          omega
        have hdrop2 : buf.drop (pos + 1) = leBytes 4 n ++ rest := by
          have := drop_after hdrop1
          simpa [leBytes] using this
        have hb := extract_buffer_spec hpos1 hdrop2
        rw [leBytes_length] at hb
        rw [extract_u8, extract_le_spec hpos hdrop1 (by norm_num)]
        dsimp only
        rw [if_neg (by norm_num : ¬ (0xFE : Nat) = 0xFF), if_pos rfl, hb]
        have hL : (0xFE :: leBytes 4 n).length = 5 := by simp [leBytes_length]
        rw [hL]
        simp only [leVal_leBytes 4 n (by simpa using (by omega : n < 2 ^ 32))]
      · rw [to_varint_bytes, if_neg h1, if_neg (by omega), if_neg h3] at hdrop ⊢
        have hdrop1 : buf.drop pos = leBytes 1 0xFF ++ (leBytes 8 n ++ rest) := by
          simpa [leBytes] using hdrop
        have hpos1 : pos + 1 ≤ buf.length := by
          have := congrArg List.length hdrop1
          simp [leBytes] at this
          omega
        have hdrop2 : buf.drop (pos + 1) = leBytes 8 n ++ rest := by
          have := drop_after hdrop1
          simpa [leBytes] using this
        have hb := extract_buffer_spec hpos1 hdrop2
        rw [leBytes_length] at hb
        rw [extract_u8, extract_le_spec hpos hdrop1 (by norm_num)]
        dsimp only
        rw [if_pos rfl, hb]
        have hL : (0xFF :: leBytes 8 n).length = 9 := by simp [leBytes_length]
        rw [hL]
        simp only [leVal_leBytes 8 n (by simpa using hn)]

end BufferParser

/-- C6: varint round trip together with the exact encoding shape on each of
the documented prefix-selection ranges, for every usize value n (usize is 64
bits wide here). -/
theorem varint_roundtrip_and_boundaries (n : Nat) (hn : n < 2 ^ 64) :
    BufferParser.extract_varint ⟨to_varint_bytes n, 0⟩ =
      (.ok n, ⟨to_varint_bytes n, (to_varint_bytes n).length⟩)
    ∧ (n ≤ 0xFC → to_varint_bytes n = [n])
    ∧ (0xFD ≤ n ∧ n ≤ 0xFFFF → to_varint_bytes n = 0xFD :: leBytes 2 n)
    ∧ (0x10000 ≤ n ∧ n ≤ 0xFFFFFFFF → to_varint_bytes n = 0xFE :: leBytes 4 n)
    ∧ (0xFFFFFFFF < n → to_varint_bytes n = 0xFF :: leBytes 8 n) := by
  refine ⟨?_, ?_, ?_, ?_, ?_⟩
  · have h := @BufferParser.extract_varint_spec (to_varint_bytes n) 0 n []
      (by omega) (by simp) hn
    simpa using h
  · intro h
    rw [to_varint_bytes, if_pos (by omega)]
    simp [leBytes]
    omega
  · intro h
    rw [to_varint_bytes, if_neg (by omega), if_pos (by omega)]
  · intro h
    rw [to_varint_bytes, if_neg (by omega), if_neg (by omega), if_pos (by omega)]
  · intro h
    rw [to_varint_bytes, if_neg (by omega), if_neg (by omega), if_neg (by omega)]

/-- Witness for C6 at n = 70000, which uses the 0xFE prefix. -/
theorem varint_roundtrip_and_boundaries_witness :
    BufferParser.extract_varint ⟨to_varint_bytes 70000, 0⟩ =
      (.ok 70000, ⟨to_varint_bytes 70000, (to_varint_bytes 70000).length⟩)
    ∧ (70000 ≤ 0xFC → to_varint_bytes 70000 = [70000])
    ∧ (0xFD ≤ 70000 ∧ 70000 ≤ 0xFFFF → to_varint_bytes 70000 = 0xFD :: leBytes 2 70000)
    ∧ (0x10000 ≤ 70000 ∧ 70000 ≤ 0xFFFFFFFF → to_varint_bytes 70000 = 0xFE :: leBytes 4 70000)
    ∧ (0xFFFFFFFF < 70000 → to_varint_bytes 70000 = 0xFF :: leBytes 8 70000) :=
  varint_roundtrip_and_boundaries 70000 (by norm_num)

namespace BufferParser

theorem extract_buffer_run (buf : List Nat) (pos size : Nat) :
    extract_buffer ⟨buf, pos⟩ size =
      if pos + size ≤ buf.length then
        (.ok ((buf.drop pos).take size), ⟨buf, pos + size⟩)
      else (.error .SerializedBufferIsInvalid, ⟨buf, pos⟩) := rfl

theorem take_one_drop {buf : List Nat} {pos : Nat} (h : pos < buf.length) :
    (buf.drop pos).take 1 = [buf.getD pos 0] := by
  rw [List.getD_eq_getElem buf 0 h]
  rw [List.drop_eq_getElem_cons h]
  rfl

theorem extract_u8_run_ok {buf : List Nat} {pos : Nat} (h : pos + 1 ≤ buf.length) :
    extract_u8 ⟨buf, pos⟩ = (.ok (buf.getD pos 0), ⟨buf, pos + 1⟩) := by
  unfold extract_u8 extract_le
  rw [extract_buffer_run, if_pos h]
  rw [take_one_drop (by omega)]
  dsimp only
  simp [leVal]

theorem extract_be16_ok {buf : List Nat} {pos : Nat} (h : pos + 2 ≤ buf.length) :
    extract_be16 ⟨buf, pos⟩ =
      (.ok (256 * buf.getD pos 0 + buf.getD (pos + 1) 0), ⟨buf, pos + 2⟩) := by
  unfold extract_be16 pbind
  rw [extract_u8_run_ok (by omega)]
  dsimp only
  rw [extract_u8_run_ok (by omega)]

theorem extract_be16_err {buf : List Nat} {pos : Nat} (h : ¬ pos + 2 ≤ buf.length) :
    ∃ q, extract_be16 ⟨buf, pos⟩ = (.error CustomError.SerializedBufferIsInvalid, q) := by
  unfold extract_be16 pbind
  by_cases h1 : pos + 1 ≤ buf.length
  · rw [extract_u8_run_ok h1]
    dsimp only
    unfold extract_u8 extract_le
    rw [extract_buffer_run, if_neg (by omega)]
    exact ⟨_, rfl⟩
  · unfold extract_u8 extract_le
    rw [extract_buffer_run, if_neg (by omega)]
    exact ⟨_, rfl⟩

theorem extract_address_ok {buf : List Nat} {pos : Nat} (h : pos + 18 ≤ buf.length) :
    extract_address ⟨buf, pos⟩ =
      (.ok ⟨[256 * buf.getD pos 0 + buf.getD (pos + 1) 0,
             256 * buf.getD (pos + 2) 0 + buf.getD (pos + 2 + 1) 0,
             256 * buf.getD (pos + 4) 0 + buf.getD (pos + 4 + 1) 0,
             256 * buf.getD (pos + 6) 0 + buf.getD (pos + 6 + 1) 0,
             256 * buf.getD (pos + 8) 0 + buf.getD (pos + 8 + 1) 0,
             256 * buf.getD (pos + 10) 0 + buf.getD (pos + 10 + 1) 0,
             256 * buf.getD (pos + 12) 0 + buf.getD (pos + 12 + 1) 0,
             256 * buf.getD (pos + 14) 0 + buf.getD (pos + 14 + 1) 0],
            256 * buf.getD (pos + 16) 0 + buf.getD (pos + 16 + 1) 0⟩,
       ⟨buf, pos + 18⟩) := by
  unfold extract_address pbind
  rw [extract_be16_ok (by omega)]
  dsimp only
  rw [extract_be16_ok (by omega), show pos + 2 + 2 = pos + 4 by omega]
  dsimp only
  rw [extract_be16_ok (by omega), show pos + 4 + 2 = pos + 6 by omega]
  dsimp only
  rw [extract_be16_ok (by omega), show pos + 6 + 2 = pos + 8 by omega]
  dsimp only
  rw [extract_be16_ok (by omega), show pos + 8 + 2 = pos + 10 by omega]
  dsimp only
  rw [extract_be16_ok (by omega), show pos + 10 + 2 = pos + 12 by omega]
  dsimp only
  rw [extract_be16_ok (by omega), show pos + 12 + 2 = pos + 14 by omega]
  dsimp only
  rw [extract_be16_ok (by omega), show pos + 14 + 2 = pos + 16 by omega]
  dsimp only
  rw [extract_be16_ok (by omega), show pos + 16 + 2 = pos + 18 by omega]

theorem extract_address_ok_inv {buf : List Nat} {pos : Nat} {a : SockAddr}
    {q : BufferParser} (h : extract_address ⟨buf, pos⟩ = (.ok a, q)) :
    pos + 18 ≤ buf.length := by
  by_contra hc
  unfold extract_address pbind at h
  by_cases c1 : pos + 2 ≤ buf.length
  · rw [extract_be16_ok c1] at h
    dsimp only at h
    by_cases c2 : pos + 2 + 2 ≤ buf.length
    · rw [extract_be16_ok c2] at h
      dsimp only at h
      by_cases c3 : pos + 2 + 2 + 2 ≤ buf.length
      · rw [extract_be16_ok c3] at h
        dsimp only at h
        by_cases c4 : pos + 2 + 2 + 2 + 2 ≤ buf.length
        · rw [extract_be16_ok c4] at h
          dsimp only at h
          by_cases c5 : pos + 2 + 2 + 2 + 2 + 2 ≤ buf.length
          · rw [extract_be16_ok c5] at h
            dsimp only at h
            by_cases c6 : pos + 2 + 2 + 2 + 2 + 2 + 2 ≤ buf.length
            · rw [extract_be16_ok c6] at h
              dsimp only at h
              by_cases c7 : pos + 2 + 2 + 2 + 2 + 2 + 2 + 2 ≤ buf.length
              · rw [extract_be16_ok c7] at h
                dsimp only at h
                by_cases c8 : pos + 2 + 2 + 2 + 2 + 2 + 2 + 2 + 2 ≤ buf.length
                · rw [extract_be16_ok c8] at h
                  dsimp only at h
                  obtain ⟨q9, h9⟩ := @extract_be16_err buf
                    (pos + 2 + 2 + 2 + 2 + 2 + 2 + 2 + 2) (by omega)
                  rw [h9] at h
                  dsimp only at h
                  exact absurd h (by simp)
                · obtain ⟨q8, h8⟩ := extract_be16_err c8
                  rw [h8] at h
                  dsimp only at h
                  exact absurd h (by simp)
              · obtain ⟨q7, h7⟩ := extract_be16_err c7
                rw [h7] at h
                dsimp only at h
                exact absurd h (by simp)
            · obtain ⟨q6, h6⟩ := extract_be16_err c6
              rw [h6] at h
              dsimp only at h
              exact absurd h (by simp)
          · obtain ⟨q5, h5⟩ := extract_be16_err c5
            rw [h5] at h
            dsimp only at h
            exact absurd h (by simp)
        · obtain ⟨q4, h4⟩ := extract_be16_err c4
          rw [h4] at h
          dsimp only at h
          exact absurd h (by simp)
      · obtain ⟨q3, h3⟩ := extract_be16_err c3
        rw [h3] at h
        dsimp only at h
        exact absurd h (by simp)
    · obtain ⟨q2, h2⟩ := extract_be16_err c2
      rw [h2] at h
      dsimp only at h
      exact absurd h (by simp)
  · obtain ⟨q1, h1⟩ := extract_be16_err c1
    rw [h1] at h
    dsimp only at h
    exact absurd h (by simp)

theorem extract_le_ok_iff {w : Nat} {buf : List Nat} {pos : Nat} :
    (∃ v q, extract_le w ⟨buf, pos⟩ = (.ok v, q)) ↔ pos + w ≤ buf.length := by
  unfold extract_le
  rw [extract_buffer_run]
  by_cases h : pos + w ≤ buf.length
  · rw [if_pos h]
    simp [h]
  · rw [if_neg h]
    simp [h]

theorem extract_ile_ok_iff {w : Nat} {buf : List Nat} {pos : Nat} :
    (∃ v q, extract_ile w ⟨buf, pos⟩ = (.ok v, q)) ↔ pos + w ≤ buf.length := by
  unfold extract_ile
  rw [extract_buffer_run]
  by_cases h : pos + w ≤ buf.length
  · rw [if_pos h]
    simp [h]
  · rw [if_neg h]
    simp [h]

/-- Number of bytes extract_varint needs given the first byte of the span. -/
def varintNeed (b : Nat) : Nat :=
  if b = 0xFF then 9 else if b = 0xFE then 5 else if b = 0xFD then 3 else 1

theorem extract_varint_ok_iff {buf : List Nat} {pos : Nat} :
    (∃ v q, extract_varint ⟨buf, pos⟩ = (.ok v, q)) ↔
      pos + varintNeed (buf.getD pos 0) ≤ buf.length := by
  by_cases h1 : pos + 1 ≤ buf.length
  · unfold extract_varint pbind
    rw [extract_u8_run_ok h1]
    dsimp only
    by_cases hff : buf.getD pos 0 = 0xFF
    · have hv : varintNeed (buf.getD pos 0) = 9 := by
        unfold varintNeed
        rw [if_pos hff]
      rw [if_pos hff, extract_buffer_run, hv]
      by_cases h8 : pos + 1 + 8 ≤ buf.length
      · rw [if_pos h8]
        dsimp only
        exact iff_of_true ⟨_, _, rfl⟩ (by omega)
      · rw [if_neg h8]
        dsimp only
        refine iff_of_false ?_ (by omega)
        rintro ⟨v, q, hvq⟩
        simp at hvq
    · have hff2 : ¬ (buf.getD pos 0 = 0xFF) := hff
      rw [if_neg hff2]
      by_cases hfe : buf.getD pos 0 = 0xFE
      · have hv : varintNeed (buf.getD pos 0) = 5 := by
          unfold varintNeed
          rw [if_neg hff2, if_pos hfe]
        rw [if_pos hfe, extract_buffer_run, hv]
        by_cases h4 : pos + 1 + 4 ≤ buf.length
        · rw [if_pos h4]
          dsimp only
          exact iff_of_true ⟨_, _, rfl⟩ (by omega)
        · rw [if_neg h4]
          dsimp only
          refine iff_of_false ?_ (by omega)
          rintro ⟨v, q, hvq⟩
          simp at hvq
      · rw [if_neg hfe]
        by_cases hfd : buf.getD pos 0 = 0xFD
        · have hv : varintNeed (buf.getD pos 0) = 3 := by
            unfold varintNeed
            rw [if_neg hff2, if_neg hfe, if_pos hfd]
          rw [if_pos hfd, extract_buffer_run, hv]
          by_cases h2 : pos + 1 + 2 ≤ buf.length
          · rw [if_pos h2]
            dsimp only
            exact iff_of_true ⟨_, _, rfl⟩ (by omega)
          · rw [if_neg h2]
            dsimp only
            refine iff_of_false ?_ (by omega)
            rintro ⟨v, q, hvq⟩
            simp at hvq
        · have hv : varintNeed (buf.getD pos 0) = 1 := by
            unfold varintNeed
            rw [if_neg hff2, if_neg hfe, if_neg hfd]
          rw [if_neg hfd, hv]
          exact iff_of_true ⟨_, _, rfl⟩ (by omega)
  · have hv : 1 ≤ varintNeed (buf.getD pos 0) := by
      unfold varintNeed
      split
      · norm_num
      · split
        · norm_num
        · split
          · norm_num
          · norm_num
    refine iff_of_false ?_ (by omega)
    rintro ⟨v, q, hvq⟩
    unfold extract_varint pbind extract_u8 extract_le at hvq
    rw [extract_buffer_run, if_neg (by omega)] at hvq
    dsimp only at hvq
    simp at hvq

theorem extract_buffer_ok_iff {buf : List Nat} {pos size : Nat} :
    (∃ xs q, extract_buffer ⟨buf, pos⟩ size = (.ok xs, q)) ↔
      pos + size ≤ buf.length := by
  rw [extract_buffer_run]
  by_cases h : pos + size ≤ buf.length
  · rw [if_pos h]
    simp [h]
  · rw [if_neg h]
    simp [h]

theorem extract_string_ok_iff {buf : List Nat} {pos size : Nat} :
    (∃ s q, extract_string ⟨buf, pos⟩ size = (.ok s, q)) ↔
      (pos + size ≤ buf.length ∧ utf8Valid ((buf.drop pos).take size)) := by
  unfold extract_string
  rw [extract_buffer_run]
  by_cases h : pos + size ≤ buf.length
  · rw [if_pos h]
    dsimp only
    by_cases hu : utf8Valid ((buf.drop pos).take size) = true
    · rw [if_pos hu]
      exact iff_of_true ⟨_, _, rfl⟩ ⟨h, hu⟩
    · rw [if_neg hu]
      refine iff_of_false ?_ (by tauto)
      rintro ⟨s1, q, hsq⟩
      simp at hsq
  · rw [if_neg h]
    dsimp only
    refine iff_of_false ?_ (by tauto)
    rintro ⟨s1, q, hsq⟩
    simp at hsq

end BufferParser

/-- C7, amended: every extraction operation of the byte codec fails exactly
when the bytes it needs exceed the remaining length, except extract_string,
which additionally fails when the extracted bytes are not valid UTF-8; a
failing extract_buffer leaves the cursor position unchanged. The signed and
unsigned fixed-width extractors are the w = 1, 2, 4, 8 instances of
extract_le and extract_ile. In the embedding every operation is a total
function, so no operation panics. -/
theorem codec_bounds_checks (buf : List Nat) (pos size w : Nat)
    (hpos : pos ≤ buf.length) :
    ((∃ xs q, BufferParser.extract_buffer ⟨buf, pos⟩ size = (.ok xs, q)) ↔
      size ≤ BufferParser.len ⟨buf, pos⟩)
    ∧ (¬ size ≤ BufferParser.len ⟨buf, pos⟩ →
        BufferParser.extract_buffer ⟨buf, pos⟩ size =
          (.error .SerializedBufferIsInvalid, ⟨buf, pos⟩))
    ∧ ((∃ v q, BufferParser.extract_le w ⟨buf, pos⟩ = (.ok v, q)) ↔
        w ≤ BufferParser.len ⟨buf, pos⟩)
    ∧ ((∃ v q, BufferParser.extract_ile w ⟨buf, pos⟩ = (.ok v, q)) ↔
        w ≤ BufferParser.len ⟨buf, pos⟩)
    ∧ ((∃ s1 q, BufferParser.extract_string ⟨buf, pos⟩ size = (.ok s1, q)) ↔
        (size ≤ BufferParser.len ⟨buf, pos⟩ ∧
          utf8Valid ((buf.drop pos).take size)))
    ∧ ((∃ a q, BufferParser.extract_address ⟨buf, pos⟩ = (.ok a, q)) ↔
        18 ≤ BufferParser.len ⟨buf, pos⟩)
    ∧ ((∃ v q, BufferParser.extract_varint ⟨buf, pos⟩ = (.ok v, q)) ↔
        BufferParser.varintNeed (buf.getD pos 0) ≤ BufferParser.len ⟨buf, pos⟩) := by
  have hlen : BufferParser.len ⟨buf, pos⟩ = buf.length - pos := rfl
  refine ⟨?_, ?_, ?_, ?_, ?_, ?_, ?_⟩
  · rw [BufferParser.extract_buffer_ok_iff, hlen]
    omega
  · intro h
    rw [hlen] at h
    exact BufferParser.extract_buffer_err (by omega)
  · rw [BufferParser.extract_le_ok_iff, hlen]
    omega
  · rw [BufferParser.extract_ile_ok_iff, hlen]
    omega
  · rw [BufferParser.extract_string_ok_iff, hlen]
    constructor
    · rintro ⟨h1, h2⟩
      exact ⟨by omega, h2⟩
    · rintro ⟨h1, h2⟩
      exact ⟨by omega, h2⟩
  · rw [hlen]
    constructor
    · rintro ⟨a, q, hq⟩
      have := BufferParser.extract_address_ok_inv hq
      omega
    · intro h18
      exact ⟨_, _, BufferParser.extract_address_ok (by omega)⟩
  · rw [BufferParser.extract_varint_ok_iff, hlen]
    omega

/-- Witness for C7 on the concrete buffer 0xFD 0x01 0x00 at position 0 with
size 1 and width 8. -/
theorem codec_bounds_checks_witness :
    (0 ≤ ([0xFD, 0x01, 0x00] : List Nat).length) ∧
    (((∃ xs q, BufferParser.extract_buffer ⟨[0xFD, 0x01, 0x00], 0⟩ 1 = (.ok xs, q)) ↔
      1 ≤ BufferParser.len ⟨[0xFD, 0x01, 0x00], 0⟩)
    ∧ (¬ 1 ≤ BufferParser.len ⟨[0xFD, 0x01, 0x00], 0⟩ →
        BufferParser.extract_buffer ⟨[0xFD, 0x01, 0x00], 0⟩ 1 =
          (.error .SerializedBufferIsInvalid, ⟨[0xFD, 0x01, 0x00], 0⟩))
    ∧ ((∃ v q, BufferParser.extract_le 8 ⟨[0xFD, 0x01, 0x00], 0⟩ = (.ok v, q)) ↔
        8 ≤ BufferParser.len ⟨[0xFD, 0x01, 0x00], 0⟩)
    ∧ ((∃ v q, BufferParser.extract_ile 8 ⟨[0xFD, 0x01, 0x00], 0⟩ = (.ok v, q)) ↔
        8 ≤ BufferParser.len ⟨[0xFD, 0x01, 0x00], 0⟩)
    ∧ ((∃ s1 q, BufferParser.extract_string ⟨[0xFD, 0x01, 0x00], 0⟩ 1 = (.ok s1, q)) ↔
        (1 ≤ BufferParser.len ⟨[0xFD, 0x01, 0x00], 0⟩ ∧
          utf8Valid ((([0xFD, 0x01, 0x00] : List Nat).drop 0).take 1)))
    ∧ ((∃ a q, BufferParser.extract_address ⟨[0xFD, 0x01, 0x00], 0⟩ = (.ok a, q)) ↔
        18 ≤ BufferParser.len ⟨[0xFD, 0x01, 0x00], 0⟩)
    ∧ ((∃ v q, BufferParser.extract_varint ⟨[0xFD, 0x01, 0x00], 0⟩ = (.ok v, q)) ↔
        BufferParser.varintNeed (([0xFD, 0x01, 0x00] : List Nat).getD 0 0) ≤
          BufferParser.len ⟨[0xFD, 0x01, 0x00], 0⟩)) :=
  ⟨by decide, codec_bounds_checks [0xFD, 0x01, 0x00] 0 1 8 (by decide)⟩

/-- Counterexample to C7 as stated: on the buffer holding the single byte
0xFF, extract_string with size 1 has exactly one byte available, yet it
fails, because 0xFF alone is not valid UTF-8. -/
theorem extract_string_utf8_counterexample :
    (BufferParser.extract_string ⟨[0xFF], 0⟩ 1).1 =
        .error CustomError.SerializedBufferIsInvalid
    ∧ 1 ≤ BufferParser.len ⟨[0xFF], 0⟩ := by
  constructor
  · rfl
  · decide

namespace BufferParser

theorem extract_le_run_ok {w : Nat} {buf : List Nat} {pos : Nat}
    (h : pos + w ≤ buf.length) :
    extract_le w ⟨buf, pos⟩ =
      (.ok (leVal ((buf.drop pos).take w)), ⟨buf, pos + w⟩) := by
  unfold extract_le
  rw [extract_buffer_run, if_pos h]

theorem extract_ile_run_ok {w : Nat} {buf : List Nat} {pos : Nat}
    (h : pos + w ≤ buf.length) :
    extract_ile w ⟨buf, pos⟩ =
      (.ok (toSigned (8 * w) (leVal ((buf.drop pos).take w))), ⟨buf, pos + w⟩) := by
  unfold extract_ile
  rw [extract_buffer_run, if_pos h]

end BufferParser

theorem leVal_eq_zero_iff (xs : List Nat) : leVal xs = 0 ↔ ∀ b ∈ xs, b = 0 := by
  induction xs with
  | nil => simp [leVal]
  | cons b t ih =>
    simp only [leVal, List.mem_cons]
    constructor
    · intro h
      have hb : b = 0 := by omega
      have ht : leVal t = 0 := by omega
      intro x hx
      rcases hx with h1 | h1
      · omega
      · exact ih.mp ht x h1
    · intro h
      have hb : b = 0 := h b (Or.inl rfl)
      have ht : leVal t = 0 := ih.mpr (fun x hx => h x (Or.inr hx))
      omega

/-- The block header record, from block_header.rs. The hash field caches the
double-SHA256 digest of the 80-byte serialization; the digest computation
lives in the external bitcoin_hashes crate and is not modelled. -/
structure BlockHeader where
  version : Int
  prev_block_hash : List Nat
  merkle_root : List Nat
  timestamp : Nat
  bits : Nat
  nonce : Nat
  hash : List Nat
  broadcasted : Bool
  block_downloaded : Bool
deriving DecidableEq, Repr

/-- The comparison loop at the end of BlockHeader::validate: walk the
reversed significand bytes of the hash against the significand bytes of the
bits field, returning the strict comparison at the first difference and
false when all bytes agree. The second list always has at least as many
elements as the first at the call site, so the out-of-bounds indexing case
is unreachable. -/
def cmpSig : List Nat → List Nat → Bool
| [], _ => false
| _ :: _, [] => false
| hb :: rest, tb :: trest => if hb ≠ tb then decide (hb < tb) else cmpSig rest trest

namespace BlockHeader

/-- BlockHeader::validate. The function indexes hash with ranges derived
from the high byte of bits and subtracts 3 from it in usize arithmetic, so
for some inputs the Rust code panics; a panic is modelled as none. The
slice hash from e to 32 panics unless e is at most 32 and the hash holds at
least 32 bytes; the subtraction in hash from e minus 3 to e panics when e
is below 3. -/
def validate (h : BlockHeader) : Option Bool :=
  let bits_vec := beBytes4 h.bits
  let leading_zeros_start := bits_vec.getD 0 0
  if leading_zeros_start ≤ 32 ∧ 32 ≤ h.hash.length then
    let leading_zeros := (h.hash.take 32).drop leading_zeros_start
    if leading_zeros.any (fun z => decide (z ≠ 0)) then some false
    else if 3 ≤ leading_zeros_start then
      some (cmpSig
        ((h.hash.take leading_zeros_start).drop (leading_zeros_start - 3)).reverse
        (bits_vec.drop 1))
    else none
  else none

/-- BlockHeader::parse. The digest argument stands for the double-SHA256 of
the buffer, computed by the external bitcoin_hashes crate before parsing;
everything else follows the source. The outer Option is none when validate
panics. -/
def parse (digest : List Nat) (buffer : List Nat) : Option (Except CustomError BlockHeader) :=
  if buffer.length < 80 then some (.error CustomError.SerializedBufferIsInvalid)
  else
    match BufferParser.extract_ile 4 ⟨buffer, 0⟩ with
    | (.ok version, p1) =>
      match p1.extract_buffer 32 with
      | (.ok prev, p2) =>
        match p2.extract_buffer 32 with
        | (.ok merkle, p3) =>
          match BufferParser.extract_le 4 p3 with
          | (.ok timestamp, p4) =>
            match BufferParser.extract_le 4 p4 with
            | (.ok bits, p5) =>
              match BufferParser.extract_le 4 p5 with
              | (.ok nonce, _) =>
                let hdr : BlockHeader :=
                  ⟨version, prev, merkle, timestamp, bits, nonce, digest, false, false⟩
                match validate hdr with
                | none => none
                | some true => some (.ok hdr)
                | some false => some (.error CustomError.HeaderInvalidPoW)
              | (.error e, _) => some (.error e)
            | (.error e, _) => some (.error e)
          | (.error e, _) => some (.error e)
        | (.error e, _) => some (.error e)
      | (.error e, _) => some (.error e)
    | (.error e, _) => some (.error e)

end BlockHeader

theorem beBytes4_expand (n : Nat) (hn : n < 2 ^ 32) :
    beBytes4 n = [n / 2 ^ 24, n / 2 ^ 16 % 256, n / 2 ^ 8 % 256, n % 256] := by
  simp only [beBytes4, leBytes, List.reverse_cons, List.reverse_nil, List.nil_append,
    List.cons_append, Nat.div_div_eq_div_mul]
  norm_num
  omega

theorem cmpSig_eq_decide (x0 x1 x2 b1 b2 b3 : Nat)
    (hx0 : x0 < 256) (hx1 : x1 < 256) (hx2 : x2 < 256)
    (hb1 : b1 < 256) (hb2 : b2 < 256) (hb3 : b3 < 256) :
    cmpSig [x2, x1, x0] [b1, b2, b3] =
      decide (x0 + 256 * x1 + 65536 * x2 < b3 + 256 * b2 + 65536 * b1) := by
  simp only [cmpSig]
  by_cases h1 : x2 = b1
  · by_cases h2 : x1 = b2
    · by_cases h3 : x0 = b3
      · rw [if_neg (by simp [h1]), if_neg (by simp [h2]), if_neg (by simp [h3])]
        subst h1
        subst h2
        subst h3
        have hnot : ¬ (x0 + 256 * x1 + 65536 * x2 < x0 + 256 * x1 + 65536 * x2) := by omega
        simp [hnot]
      · rw [if_neg (by simp [h1]), if_neg (by simp [h2]), if_pos (by simp [h3])]
        rw [decide_eq_decide]
        subst h1
        subst h2
        omega
    · rw [if_neg (by simp [h1]), if_pos (by simp [h2])]
      rw [decide_eq_decide]
      subst h1
      omega
  · rw [if_pos (by simp [h1])]
    rw [decide_eq_decide]
    omega

theorem pow_split_lt_iff (L S Z s P : Nat) (hL : L < P) (hS : S < 16777216)
    (hs : s < 16777216) :
    L + P * (S + 16777216 * Z) < s * P ↔ (Z = 0 ∧ S < s) := by
  constructor
  · intro hlt
    have hZ : Z = 0 := by
      by_contra hZ0
      have h1 : 16777216 ≤ S + 16777216 * Z := by
        have hz1 : 1 ≤ Z := Nat.one_le_iff_ne_zero.mpr hZ0
        have : 16777216 * 1 ≤ 16777216 * Z := Nat.mul_le_mul_left _ hz1
        omega
      have h2 : s ≤ S + 16777216 * Z := by omega
      have h3 : s * P ≤ (S + 16777216 * Z) * P := Nat.mul_le_mul_right _ h2
      have h4 : (S + 16777216 * Z) * P = P * (S + 16777216 * Z) := by ring
      omega
    refine ⟨hZ, ?_⟩
    subst hZ
    by_contra hs0
    have h2 : s ≤ S := by omega
    have h3 : s * P ≤ S * P := Nat.mul_le_mul_right _ h2
    have h4 : S * P = P * (S + 16777216 * 0) := by ring
    omega
  · rintro ⟨hZ, hSs⟩
    subst hZ
    have h1 : P * (S + 16777216 * 0) = P * S := by ring
    have h2 : P * (S + 1) ≤ P * s := Nat.mul_le_mul_left _ (by omega)
    have h3 : P * (S + 1) = P * S + P := by ring
    have h4 : P * s = s * P := by ring
    omega

/-- C2: for a header whose cached hash is 32 bytes and whose compact bits
exponent e lies in the range from 3 to 32, validate succeeds exactly when
the hash read as a little-endian 256-bit integer is strictly below the
target, the significand times 256 to the power e minus 3; a hash exactly
equal to the target is rejected. -/
theorem validate_strict_pow (h : BlockHeader)
    (hbits : h.bits < 2 ^ 32) (hlen : h.hash.length = 32)
    (hbytes : ∀ b ∈ h.hash, b < 256)
    (he3 : 3 ≤ h.bits / 2 ^ 24) (he32 : h.bits / 2 ^ 24 ≤ 32) :
    (BlockHeader.validate h = some true ↔
      leVal h.hash < (h.bits % 2 ^ 24) * 256 ^ (h.bits / 2 ^ 24 - 3))
    ∧ (leVal h.hash = (h.bits % 2 ^ 24) * 256 ^ (h.bits / 2 ^ 24 - 3) →
      BlockHeader.validate h = some false) := by
  have hmain : BlockHeader.validate h =
      some (decide (leVal h.hash <
        (h.bits % 2 ^ 24) * 256 ^ (h.bits / 2 ^ 24 - 3))) := by
    have hbv := beBytes4_expand h.bits hbits
    simp only [BlockHeader.validate, hbv]
    have hgd : ([h.bits / 2 ^ 24, h.bits / 2 ^ 16 % 256, h.bits / 2 ^ 8 % 256,
        h.bits % 256] : List Nat).getD 0 0 = h.bits / 2 ^ 24 := rfl
    rw [hgd, if_pos ⟨he32, by omega⟩]
    have htake32 : h.hash.take 32 = h.hash := by
      rw [← hlen, List.take_length]
    rw [htake32]
    -- decompose the hash into low bytes, significand bytes and high bytes
    have hd3 : (h.hash.drop (h.bits / 2 ^ 24 - 3)).drop 3 = h.hash.drop (h.bits / 2 ^ 24) := by
      rw [List.drop_drop]
      congr 1
      omega
    have hsig_len : ((h.hash.drop (h.bits / 2 ^ 24 - 3)).take 3).length = 3 := by
      rw [List.length_take, List.length_drop, hlen]
      omega
    have hsplit : h.hash =
        h.hash.take (h.bits / 2 ^ 24 - 3) ++
          ((h.hash.drop (h.bits / 2 ^ 24 - 3)).take 3 ++
            h.hash.drop (h.bits / 2 ^ 24)) := by
      rw [← hd3, List.take_append_drop, List.take_append_drop]
    have hxs_len : (h.hash.take (h.bits / 2 ^ 24 - 3)).length = h.bits / 2 ^ 24 - 3 := by
      rw [List.length_take, hlen]
      omega
    have hval : leVal h.hash =
        leVal (h.hash.take (h.bits / 2 ^ 24 - 3)) +
          256 ^ (h.bits / 2 ^ 24 - 3) *
            (leVal ((h.hash.drop (h.bits / 2 ^ 24 - 3)).take 3) +
              16777216 * leVal (h.hash.drop (h.bits / 2 ^ 24))) := by
      conv_lhs => rw [hsplit]
      rw [leVal_append, leVal_append, hxs_len, hsig_len]
      norm_num
    have hxs_lt : leVal (h.hash.take (h.bits / 2 ^ 24 - 3)) <
        256 ^ (h.bits / 2 ^ 24 - 3) := by
      have := leVal_lt (h.hash.take (h.bits / 2 ^ 24 - 3))
        (fun b hb => hbytes b (List.mem_of_mem_take hb))
      rwa [hxs_len] at this
    have hsig_lt : leVal ((h.hash.drop (h.bits / 2 ^ 24 - 3)).take 3) < 16777216 := by
      have := leVal_lt ((h.hash.drop (h.bits / 2 ^ 24 - 3)).take 3)
        (fun b hb => hbytes b (List.mem_of_mem_drop (List.mem_of_mem_take hb)))
      rwa [hsig_len] at this
    have hs24 : h.bits % 2 ^ 24 < 16777216 := by omega
    have hiff := pow_split_lt_iff (leVal (h.hash.take (h.bits / 2 ^ 24 - 3)))
      (leVal ((h.hash.drop (h.bits / 2 ^ 24 - 3)).take 3))
      (leVal (h.hash.drop (h.bits / 2 ^ 24))) (h.bits % 2 ^ 24)
      (256 ^ (h.bits / 2 ^ 24 - 3)) hxs_lt hsig_lt hs24
    by_cases hz : ∀ b ∈ h.hash.drop (h.bits / 2 ^ 24), b = 0
    · have hany : (h.hash.drop (h.bits / 2 ^ 24)).any (fun z => decide (z ≠ 0)) = false := by
        simp only [List.any_eq_false, decide_eq_true_eq, ne_eq, Decidable.not_not]
        exact hz
      rw [hany]
      simp only [Bool.false_eq_true, if_false, if_pos he3]
      have hzval : leVal (h.hash.drop (h.bits / 2 ^ 24)) = 0 :=
        (leVal_eq_zero_iff _).mpr hz
      have hdt : (h.hash.take (h.bits / 2 ^ 24)).drop (h.bits / 2 ^ 24 - 3) =
          (h.hash.drop (h.bits / 2 ^ 24 - 3)).take 3 := by
        rw [List.drop_take]
        congr 1
        omega
      rw [hdt]
      obtain ⟨x0, x1, x2, hx⟩ := List.length_eq_three.mp hsig_len
      have hx0 : x0 < 256 := hbytes x0 (by
        have : x0 ∈ (h.hash.drop (h.bits / 2 ^ 24 - 3)).take 3 := by rw [hx]; simp
        exact List.mem_of_mem_drop (List.mem_of_mem_take this))
      have hx1 : x1 < 256 := hbytes x1 (by
        have : x1 ∈ (h.hash.drop (h.bits / 2 ^ 24 - 3)).take 3 := by rw [hx]; simp
        exact List.mem_of_mem_drop (List.mem_of_mem_take this))
      have hx2 : x2 < 256 := hbytes x2 (by
        have : x2 ∈ (h.hash.drop (h.bits / 2 ^ 24 - 3)).take 3 := by rw [hx]; simp
        exact List.mem_of_mem_drop (List.mem_of_mem_take this))
      rw [hx]
      have hrev : ([x0, x1, x2] : List Nat).reverse = [x2, x1, x0] := rfl
      rw [hrev]
      have hdrop1 : ([h.bits / 2 ^ 24, h.bits / 2 ^ 16 % 256, h.bits / 2 ^ 8 % 256,
          h.bits % 256] : List Nat).drop 1 =
          [h.bits / 2 ^ 16 % 256, h.bits / 2 ^ 8 % 256, h.bits % 256] := rfl
      rw [hdrop1]
      rw [cmpSig_eq_decide x0 x1 x2 _ _ _ hx0 hx1 hx2
        (by omega) (by omega) (by omega)]
      congr 1
      rw [decide_eq_decide]
      have hsigval : leVal ((h.hash.drop (h.bits / 2 ^ 24 - 3)).take 3) =
          x0 + 256 * x1 + 65536 * x2 := by
        rw [hx]
        simp [leVal]
        ring
      have hb123 : h.bits % 256 + 256 * (h.bits / 2 ^ 8 % 256) +
          65536 * (h.bits / 2 ^ 16 % 256) = h.bits % 2 ^ 24 := by omega
      rw [hb123, hval, hiff, hsigval]
      simp [hzval]
      intro _
      simpa using hzval
    · have hany : (h.hash.drop (h.bits / 2 ^ 24)).any (fun z => decide (z ≠ 0)) = true := by
        push_neg at hz
        obtain ⟨b, hb, hbne⟩ := hz
        simp only [List.any_eq_true, decide_eq_true_eq, ne_eq]
        exact ⟨b, hb, hbne⟩
      rw [hany]
      simp only [if_true]
      congr 1
      have hzpos : leVal (h.hash.drop (h.bits / 2 ^ 24)) ≠ 0 := by
        intro h0
        exact hz ((leVal_eq_zero_iff _).mp h0)
      have hnot : ¬ (leVal h.hash <
          (h.bits % 2 ^ 24) * 256 ^ (h.bits / 2 ^ 24 - 3)) := by
        intro hlt
        rw [hval] at hlt
        exact hzpos (hiff.mp hlt).1
      rw [eq_comm, decide_eq_false_iff_not]
      exact hnot
  constructor
  · rw [hmain]
    simp
  · intro heq
    rw [hmain]
    have hne : ¬ (leVal h.hash < (h.bits % 2 ^ 24) * 256 ^ (h.bits / 2 ^ 24 - 3)) := by omega
    exact congrArg some (decide_eq_false hne)

/-- Witness for C2 at the proof-of-work test vector of the repository. -/
theorem validate_strict_pow_witness :
    ((BlockHeader.validate
        ⟨2, List.replicate 32 0, List.replicate 32 0, 1347149007, 476726600, 240236131,
          [10, 110, 89, 244, 38, 172, 240, 48, 75, 251, 139, 33, 16, 164, 179, 154,
           22, 123, 120, 81, 209, 213, 111, 183, 7, 9, 162, 49, 0, 0, 0, 0],
          false, false⟩ = some true ↔
      leVal [10, 110, 89, 244, 38, 172, 240, 48, 75, 251, 139, 33, 16, 164, 179, 154,
             22, 123, 120, 81, 209, 213, 111, 183, 7, 9, 162, 49, 0, 0, 0, 0] <
        (476726600 % 2 ^ 24) * 256 ^ (476726600 / 2 ^ 24 - 3))
    ∧ (leVal [10, 110, 89, 244, 38, 172, 240, 48, 75, 251, 139, 33, 16, 164, 179, 154,
              22, 123, 120, 81, 209, 213, 111, 183, 7, 9, 162, 49, 0, 0, 0, 0] =
        (476726600 % 2 ^ 24) * 256 ^ (476726600 / 2 ^ 24 - 3) →
      BlockHeader.validate
        ⟨2, List.replicate 32 0, List.replicate 32 0, 1347149007, 476726600, 240236131,
          [10, 110, 89, 244, 38, 172, 240, 48, 75, 251, 139, 33, 16, 164, 179, 154,
           22, 123, 120, 81, 209, 213, 111, 183, 7, 9, 162, 49, 0, 0, 0, 0],
          false, false⟩ = some false)) :=
  validate_strict_pow _ (by norm_num) (by decide) (by decide) (by norm_num) (by norm_num)

theorem validate_none_of_high_exponent (h : BlockHeader)
    (h32 : 32 < (beBytes4 h.bits).getD 0 0) :
    BlockHeader.validate h = none := by
  simp only [BlockHeader.validate]
  rw [if_neg (by omega)]

/-- C9, amended: validate panics (modelled as none) whenever the compact
bits exponent e exceeds 32; for e below 3 it panics exactly when the hash
bytes from position e upward are all zero, and otherwise returns false
without panicking; parse propagates the unconditional panic for e above 32
on every 80-byte buffer. -/
theorem validate_partiality (h : BlockHeader) (hlen : h.hash.length = 32) :
    (32 < (beBytes4 h.bits).getD 0 0 → BlockHeader.validate h = none)
    ∧ ((beBytes4 h.bits).getD 0 0 < 3 →
        ((∀ b ∈ h.hash.drop ((beBytes4 h.bits).getD 0 0), b = 0) →
          BlockHeader.validate h = none)
        ∧ ((∃ b ∈ h.hash.drop ((beBytes4 h.bits).getD 0 0), b ≠ 0) →
          BlockHeader.validate h = some false))
    ∧ (∀ digest buffer, digest.length = 32 → buffer.length = 80 →
        32 < (beBytes4 (leVal ((buffer.drop 72).take 4))).getD 0 0 →
        BlockHeader.parse digest buffer = none) := by
  have htake32 : h.hash.take 32 = h.hash := by
    rw [← hlen, List.take_length]
  refine ⟨fun h32 => validate_none_of_high_exponent h h32, fun he => ⟨?_, ?_⟩, ?_⟩
  · intro hz
    simp only [BlockHeader.validate]
    rw [if_pos ⟨by omega, by omega⟩, htake32]
    have hany : (h.hash.drop ((beBytes4 h.bits).getD 0 0)).any
        (fun z => decide (z ≠ 0)) = false := by
      simp only [List.any_eq_false, decide_eq_true_eq, ne_eq, Decidable.not_not]
      exact hz
    rw [hany]
    simp only [Bool.false_eq_true, if_false]
    rw [if_neg (by omega)]
  · intro hz
    simp only [BlockHeader.validate]
    rw [if_pos ⟨by omega, by omega⟩, htake32]
    have hany : (h.hash.drop ((beBytes4 h.bits).getD 0 0)).any
        (fun z => decide (z ≠ 0)) = true := by
      obtain ⟨b, hb, hbne⟩ := hz
      simp only [List.any_eq_true, decide_eq_true_eq, ne_eq]
      exact ⟨b, hb, hbne⟩
    rw [hany]
    simp only [if_true]
  · intro digest buffer hd hb he
    simp only [BlockHeader.parse]
    rw [if_neg (by omega)]
    rw [BufferParser.extract_ile_run_ok (by omega)]
    dsimp only
    rw [BufferParser.extract_buffer_run, if_pos (by omega)]
    dsimp only
    rw [BufferParser.extract_buffer_run, if_pos (by omega)]
    dsimp only
    rw [BufferParser.extract_le_run_ok (by omega)]
    dsimp only
    rw [BufferParser.extract_le_run_ok (by omega)]
    dsimp only
    rw [BufferParser.extract_le_run_ok (by omega)]
    dsimp only
    rw [show (4 : Nat) + 32 = 36 by norm_num, show (36 : Nat) + 32 = 68 by norm_num,
      show (68 : Nat) + 4 = 72 by norm_num]
    rw [validate_none_of_high_exponent _ (by simpa using he)]

/-- Witness for C9 at a header whose bits field has exponent 255. -/
theorem validate_partiality_witness :
    ((32 < (beBytes4 (0xFF000000 : Nat)).getD 0 0 →
      BlockHeader.validate
        ⟨2, [], [], 0, 0xFF000000, 0, List.replicate 32 0, false, false⟩ = none)
    ∧ ((beBytes4 (0xFF000000 : Nat)).getD 0 0 < 3 →
        ((∀ b ∈ (List.replicate 32 0).drop ((beBytes4 (0xFF000000 : Nat)).getD 0 0), b = 0) →
          BlockHeader.validate
            ⟨2, [], [], 0, 0xFF000000, 0, List.replicate 32 0, false, false⟩ = none)
        ∧ ((∃ b ∈ (List.replicate 32 0).drop ((beBytes4 (0xFF000000 : Nat)).getD 0 0), b ≠ 0) →
          BlockHeader.validate
            ⟨2, [], [], 0, 0xFF000000, 0, List.replicate 32 0, false, false⟩ = some false))
    ∧ (∀ digest buffer, digest.length = 32 → buffer.length = 80 →
        32 < (beBytes4 (leVal ((buffer.drop 72).take 4))).getD 0 0 →
        BlockHeader.parse digest buffer = none)) :=
  validate_partiality ⟨2, [], [], 0, 0xFF000000, 0, List.replicate 32 0, false, false⟩
    (by decide)

/-- Counterexample to C9 as stated: a header whose bits exponent is 0, with
a nonzero byte in its hash, makes validate return false rather than panic,
because the all-zero check runs before the underflowing subtraction. -/
theorem validate_low_exponent_counterexample :
    (beBytes4 (0 : Nat)).getD 0 0 < 3 ∧
    BlockHeader.validate
      ⟨2, List.replicate 32 0, List.replicate 32 0, 0, 0, 0,
        1 :: List.replicate 31 0, false, false⟩ = some false := by
  constructor
  · decide
  · rfl

/-- Transaction outpoint, from outpoint.rs and messages/transaction.rs. -/
structure OutPoint where
  hash : List Nat
  index : Nat
deriving DecidableEq, Repr

/-- Transaction input, from messages/transaction.rs. -/
structure TransactionInput where
  previous_output : OutPoint
  script_sig : List Nat
  sequence : Nat
deriving DecidableEq, Repr

/-- Transaction output, from messages/transaction.rs and structs/tx_output.rs. -/
structure TransactionOutput where
  value : Nat
  script_pubkey : List Nat
deriving DecidableEq, Repr

/-- Transaction, from messages/transaction.rs. -/
structure Transaction where
  version : Nat
  inputs : List TransactionInput
  outputs : List TransactionOutput
  lock_time : Nat
deriving DecidableEq, Repr

def OutPoint.serialize (o : OutPoint) : List Nat :=
  o.hash ++ leBytes 4 o.index

def OutPoint.parse (buffer : List Nat) : Except CustomError OutPoint :=
  match BufferParser.extract_buffer ⟨buffer, 0⟩ 32 with
  | (.ok hash, p1) =>
    match BufferParser.extract_le 4 p1 with
    | (.ok index, _) => .ok ⟨hash, index⟩
    | (.error e, _) => .error e
  | (.error e, _) => .error e

def TransactionInput.serialize (i : TransactionInput) : List Nat :=
  i.previous_output.serialize ++
    (to_varint_bytes i.script_sig.length ++ (i.script_sig ++ leBytes 4 i.sequence))

def TransactionInput.parse (p : BufferParser) : BufferParser.PResult TransactionInput :=
  match p.extract_buffer 36 with
  | (.ok op_bytes, p1) =>
    match OutPoint.parse op_bytes with
    | .ok prev =>
      match BufferParser.extract_varint p1 with
      | (.ok script_sig_length, p2) =>
        match p2.extract_buffer script_sig_length with
        | (.ok script_sig, p3) =>
          match BufferParser.extract_le 4 p3 with
          | (.ok sequence, p4) => (.ok ⟨prev, script_sig, sequence⟩, p4)
          | (.error e, p4) => (.error e, p4)
        | (.error e, p3) => (.error e, p3)
      | (.error e, p2) => (.error e, p2)
    | .error e => (.error e, p1)
  | (.error e, p1) => (.error e, p1)

def TransactionOutput.serialize (o : TransactionOutput) : List Nat :=
  leBytes 8 o.value ++ (to_varint_bytes o.script_pubkey.length ++ o.script_pubkey)

def TransactionOutput.parse (p : BufferParser) : BufferParser.PResult TransactionOutput :=
  match BufferParser.extract_le 8 p with
  | (.ok value, p1) =>
    match BufferParser.extract_varint p1 with
    | (.ok script_pk_length, p2) =>
      match p2.extract_buffer script_pk_length with
      | (.ok script_pubkey, p3) => (.ok ⟨value, script_pubkey⟩, p3)
      | (.error e, p3) => (.error e, p3)
    | (.error e, p2) => (.error e, p2)
  | (.error e, p1) => (.error e, p1)

/-- Repeated parsing, mirroring a Rust for loop pushing count parsed items. -/
def parseN {α : Type} (f : BufferParser → BufferParser.PResult α) :
    Nat → BufferParser → BufferParser.PResult (List α)
| 0, p => (.ok [], p)
| n + 1, p =>
  match f p with
  | (.ok a, p1) =>
    match parseN f n p1 with
    | (.ok rest, p2) => (.ok (a :: rest), p2)
    | (.error e, p2) => (.error e, p2)
  | (.error e, p1) => (.error e, p1)

def Transaction.serialize (t : Transaction) : List Nat :=
  leBytes 4 t.version ++
    (to_varint_bytes t.inputs.length ++
      ((t.inputs.map TransactionInput.serialize).flatten ++
        (to_varint_bytes t.outputs.length ++
          ((t.outputs.map TransactionOutput.serialize).flatten ++ leBytes 4 t.lock_time))))

/-- The parse of the Message impl for Transaction: builds a fresh parser
over the buffer and reads version, inputs, outputs and lock time. -/
def Transaction.parseMsg (buffer : List Nat) : Except CustomError Transaction :=
  match BufferParser.extract_le 4 ⟨buffer, 0⟩ with
  | (.ok version, p1) =>
    match BufferParser.extract_varint p1 with
    | (.ok tx_in_count, p2) =>
      match parseN TransactionInput.parse tx_in_count p2 with
      | (.ok inputs, p3) =>
        match BufferParser.extract_varint p3 with
        | (.ok tx_out_count, p4) =>
          match parseN TransactionOutput.parse tx_out_count p4 with
          | (.ok outputs, p5) =>
            match BufferParser.extract_le 4 p5 with
            | (.ok lock_time, _) => .ok ⟨version, inputs, outputs, lock_time⟩
            | (.error e, _) => .error e
          | (.error e, _) => .error e
        | (.error e, _) => .error e
      | (.error e, _) => .error e
    | (.error e, _) => .error e
  | (.error e, _) => .error e

/-- Bounds carried by the Rust types of a transaction input: the outpoint
index and sequence are u32 and the script length is a usize. -/
def TransactionInput.wf (i : TransactionInput) : Prop :=
  i.previous_output.index < 2 ^ 32 ∧ i.sequence < 2 ^ 32 ∧ i.script_sig.length < 2 ^ 64

/-- Bounds carried by the Rust types of a transaction output. -/
def TransactionOutput.wf (o : TransactionOutput) : Prop :=
  o.value < 2 ^ 64 ∧ o.script_pubkey.length < 2 ^ 64

/-- Bounds carried by the Rust types of a transaction, plus the 32-byte
outpoint hashes required by the claim. -/
def Transaction.wf (t : Transaction) : Prop :=
  t.version < 2 ^ 32 ∧ t.lock_time < 2 ^ 32 ∧
  t.inputs.length < 2 ^ 64 ∧ t.outputs.length < 2 ^ 64 ∧
  (∀ i ∈ t.inputs, i.wf ∧ i.previous_output.hash.length = 32) ∧
  (∀ o ∈ t.outputs, o.wf)

theorem to_varint_bytes_length_pos (n : Nat) : 1 ≤ (to_varint_bytes n).length := by
  unfold to_varint_bytes
  split
  · simp [leBytes_length]
  · split
    · simp
    · split
      · simp
      · simp

theorem drop_len_eq {buf : List Nat} {pos : Nat} {xs rest : List Nat}
    (hdrop : buf.drop pos = xs ++ rest) :
    buf.length - pos = xs.length + rest.length := by
  have := congrArg List.length hdrop
  simpa using this

theorem outpoint_parse_serialize (o : OutPoint) (hlen : o.hash.length = 32)
    (hidx : o.index < 2 ^ 32) :
    OutPoint.parse o.serialize = .ok o := by
  unfold OutPoint.parse OutPoint.serialize
  have hdrop0 : (o.hash ++ leBytes 4 o.index).drop 0 = o.hash ++ leBytes 4 o.index := rfl
  have hb := @BufferParser.extract_buffer_spec (o.hash ++ leBytes 4 o.index) 0
    o.hash (leBytes 4 o.index) (by simp) hdrop0
  rw [hlen] at hb
  rw [hb]
  dsimp only
  have hdrop2 : (o.hash ++ leBytes 4 o.index).drop (0 + o.hash.length) =
      leBytes 4 o.index ++ [] := by
    rw [List.append_nil]
    have := @BufferParser.drop_after (o.hash ++ leBytes 4 o.index) 0
      o.hash (leBytes 4 o.index) hdrop0
    simpa using this
  rw [hlen] at hdrop2
  rw [BufferParser.extract_le_spec (by simp [hlen, leBytes_length]) hdrop2
    (by simpa using hidx)]

theorem input_parse_spec (i : TransactionInput)
    (hwf : i.wf) (hhash : i.previous_output.hash.length = 32)
    {buf : List Nat} {pos : Nat} {rest : List Nat}
    (hdrop : buf.drop pos = i.serialize ++ rest) :
    TransactionInput.parse ⟨buf, pos⟩ = (.ok i, ⟨buf, pos + i.serialize.length⟩) := by
  obtain ⟨hidx, hseq, hslen⟩ := hwf
  have hop_len : i.previous_output.serialize.length = 36 := by
    simp [OutPoint.serialize, leBytes_length, hhash]
  have hdrop1 : buf.drop pos = i.previous_output.serialize ++
      ((to_varint_bytes i.script_sig.length ++ (i.script_sig ++ leBytes 4 i.sequence)) ++
        rest) := by
    simpa [TransactionInput.serialize, List.append_assoc] using hdrop
  have hpos : pos ≤ buf.length := by
    have hdl := drop_len_eq hdrop1
    rw [hop_len] at hdl
    omega
  unfold TransactionInput.parse
  have hb := BufferParser.extract_buffer_spec hpos hdrop1
  rw [hop_len] at hb
  rw [hb]
  dsimp only
  rw [outpoint_parse_serialize _ hhash hidx]
  have hdrop2 : buf.drop (pos + 36) = to_varint_bytes i.script_sig.length ++
      ((i.script_sig ++ leBytes 4 i.sequence) ++ rest) := by
    have := BufferParser.drop_after hdrop1
    rw [hop_len] at this
    simpa [List.append_assoc] using this
  have hpos2 : pos + 36 ≤ buf.length := by
    have hdl2 := drop_len_eq hdrop2
    have hv1 := to_varint_bytes_length_pos i.script_sig.length
    omega
  rw [BufferParser.extract_varint_spec hpos2 hdrop2 hslen]
  dsimp only
  have hdrop3 : buf.drop (pos + 36 + (to_varint_bytes i.script_sig.length).length) =
      i.script_sig ++ (leBytes 4 i.sequence ++ rest) := by
    have := BufferParser.drop_after hdrop2
    simpa [List.append_assoc] using this
  have hpos3 : pos + 36 + (to_varint_bytes i.script_sig.length).length ≤ buf.length := by
    have hdl3 := drop_len_eq hdrop3
    have h4 : (leBytes 4 i.sequence).length = 4 := leBytes_length 4 i.sequence
    simp only [List.length_append, h4] at hdl3
    omega
  have hb3 := BufferParser.extract_buffer_spec hpos3 hdrop3
  rw [hb3]
  dsimp only
  have hdrop4 : buf.drop (pos + 36 + (to_varint_bytes i.script_sig.length).length +
      i.script_sig.length) = leBytes 4 i.sequence ++ rest :=
    BufferParser.drop_after hdrop3
  have hpos4 : pos + 36 + (to_varint_bytes i.script_sig.length).length +
      i.script_sig.length ≤ buf.length := by
    have hdl4 := drop_len_eq hdrop4
    have h4 : (leBytes 4 i.sequence).length = 4 := leBytes_length 4 i.sequence
    rw [h4] at hdl4
    omega
  rw [BufferParser.extract_le_spec hpos4 hdrop4 (by simpa using hseq)]
  dsimp only
  have hser_len : i.serialize.length =
      36 + ((to_varint_bytes i.script_sig.length).length + (i.script_sig.length + 4)) := by
    simp [TransactionInput.serialize, OutPoint.serialize, leBytes_length, hhash]
    omega
  have hfin : pos + i.serialize.length =
      pos + 36 + (to_varint_bytes i.script_sig.length).length + i.script_sig.length + 4 := by
    rw [hser_len]
    ring
  rw [hfin]

theorem output_parse_spec (o : TransactionOutput) (hwf : o.wf)
    {buf : List Nat} {pos : Nat} {rest : List Nat}
    (hdrop : buf.drop pos = o.serialize ++ rest) :
    TransactionOutput.parse ⟨buf, pos⟩ = (.ok o, ⟨buf, pos + o.serialize.length⟩) := by
  obtain ⟨hval, hslen⟩ := hwf
  have hdrop1 : buf.drop pos = leBytes 8 o.value ++
      ((to_varint_bytes o.script_pubkey.length ++ o.script_pubkey) ++ rest) := by
    simpa [TransactionOutput.serialize, List.append_assoc] using hdrop
  have hpos : pos ≤ buf.length := by
    have hdl := drop_len_eq hdrop1
    have h8 : (leBytes 8 o.value).length = 8 := leBytes_length 8 o.value
    rw [h8] at hdl
    omega
  unfold TransactionOutput.parse
  rw [BufferParser.extract_le_spec hpos hdrop1 (by simpa using hval)]
  dsimp only
  have hdrop2 : buf.drop (pos + 8) = to_varint_bytes o.script_pubkey.length ++
      (o.script_pubkey ++ rest) := by
    have := BufferParser.drop_after hdrop1
    have h8 : (leBytes 8 o.value).length = 8 := leBytes_length 8 o.value
    rw [h8] at this
    simpa [List.append_assoc] using this
  have hpos2 : pos + 8 ≤ buf.length := by
    have hdl2 := drop_len_eq hdrop2
    have hv1 : 1 ≤ (to_varint_bytes o.script_pubkey.length).length := by
      unfold to_varint_bytes
      split
      · simp [leBytes_length]
      · split
        · simp
        · split
          · simp
          · simp
    omega
  rw [BufferParser.extract_varint_spec hpos2 hdrop2 hslen]
  dsimp only
  have hdrop3 : buf.drop (pos + 8 + (to_varint_bytes o.script_pubkey.length).length) =
      o.script_pubkey ++ rest :=
    BufferParser.drop_after hdrop2
  have hpos3 : pos + 8 + (to_varint_bytes o.script_pubkey.length).length ≤ buf.length := by
    have hdl2 := drop_len_eq hdrop2
    simp only [List.length_append] at hdl2
    omega
  have hb3 := BufferParser.extract_buffer_spec hpos3 hdrop3
  rw [hb3]
  dsimp only
  have hser_len : o.serialize.length =
      8 + ((to_varint_bytes o.script_pubkey.length).length + o.script_pubkey.length) := by
    simp [TransactionOutput.serialize, leBytes_length]
  have hfin : pos + o.serialize.length =
      pos + 8 + (to_varint_bytes o.script_pubkey.length).length + o.script_pubkey.length := by
    rw [hser_len]
    ring
  rw [hfin]

theorem parseN_input_spec (l : List TransactionInput)
    (hwf : ∀ i ∈ l, i.wf ∧ i.previous_output.hash.length = 32) :
    ∀ (buf : List Nat) (pos : Nat) (rest : List Nat),
    buf.drop pos = (l.map TransactionInput.serialize).flatten ++ rest →
    parseN TransactionInput.parse l.length ⟨buf, pos⟩ =
      (.ok l, ⟨buf, pos + ((l.map TransactionInput.serialize).flatten).length⟩) := by
  induction l with
  | nil =>
    intro buf pos rest hdrop
    simp [parseN]
  | cons i t ih =>
    intro buf pos rest hdrop
    have hdrop1 : buf.drop pos = i.serialize ++
        ((t.map TransactionInput.serialize).flatten ++ rest) := by
      simpa [List.append_assoc] using hdrop
    have hihd := (hwf i (List.mem_cons_self i t))
    simp only [List.length_cons, parseN]
    rw [input_parse_spec i hihd.1 hihd.2 hdrop1]
    dsimp only
    rw [ih (fun x hx => hwf x (List.mem_cons_of_mem i hx)) buf
      (pos + i.serialize.length) rest (BufferParser.drop_after hdrop1)]
    dsimp only
    have hfin : pos + ((List.map TransactionInput.serialize (i :: t)).flatten).length =
        pos + i.serialize.length +
          ((List.map TransactionInput.serialize t).flatten).length := by
      simp only [List.map_cons, List.flatten_cons, List.length_append]
      ring
    rw [hfin]

theorem parseN_output_spec (l : List TransactionOutput)
    (hwf : ∀ o ∈ l, o.wf) :
    ∀ (buf : List Nat) (pos : Nat) (rest : List Nat),
    buf.drop pos = (l.map TransactionOutput.serialize).flatten ++ rest →
    parseN TransactionOutput.parse l.length ⟨buf, pos⟩ =
      (.ok l, ⟨buf, pos + ((l.map TransactionOutput.serialize).flatten).length⟩) := by
  induction l with
  | nil =>
    intro buf pos rest hdrop
    simp [parseN]
  | cons o t ih =>
    intro buf pos rest hdrop
    have hdrop1 : buf.drop pos = o.serialize ++
        ((t.map TransactionOutput.serialize).flatten ++ rest) := by
      simpa [List.append_assoc] using hdrop
    simp only [List.length_cons, parseN]
    rw [output_parse_spec o (hwf o (List.mem_cons_self o t)) hdrop1]
    dsimp only
    rw [ih (fun x hx => hwf x (List.mem_cons_of_mem o hx)) buf
      (pos + o.serialize.length) rest (BufferParser.drop_after hdrop1)]
    dsimp only
    have hfin : pos + ((List.map TransactionOutput.serialize (o :: t)).flatten).length =
        pos + o.serialize.length +
          ((List.map TransactionOutput.serialize t).flatten).length := by
      simp only [List.map_cons, List.flatten_cons, List.length_append]
      ring
    rw [hfin]

/-- C5: parsing the serialization of a transaction whose outpoint hashes
are exactly 32 bytes long returns the same transaction, given the bounds
carried by the Rust integer types. -/
theorem transaction_parse_serialize (t : Transaction) (hwf : t.wf) :
    Transaction.parseMsg (Transaction.serialize t) = .ok t := by
  obtain ⟨hver, hlock, hilen, holen, hins, houts⟩ := hwf
  unfold Transaction.parseMsg
  have hdrop0 : (Transaction.serialize t).drop 0 = leBytes 4 t.version ++
      (to_varint_bytes t.inputs.length ++
        ((t.inputs.map TransactionInput.serialize).flatten ++
          (to_varint_bytes t.outputs.length ++
            ((t.outputs.map TransactionOutput.serialize).flatten ++
              (leBytes 4 t.lock_time ++ []))))) := by
    simp [Transaction.serialize]
  rw [BufferParser.extract_le_spec (by simp) hdrop0 (by simpa using hver)]
  dsimp only
  have hdrop1 := BufferParser.drop_after hdrop0
  rw [leBytes_length] at hdrop1
  have hpos1 : (0 : Nat) + 4 ≤ (Transaction.serialize t).length := by
    have hdl1 := drop_len_eq hdrop1
    have hv1 := to_varint_bytes_length_pos t.inputs.length
    omega
  rw [BufferParser.extract_varint_spec hpos1 hdrop1 hilen]
  dsimp only
  have hdrop2 := BufferParser.drop_after hdrop1
  rw [parseN_input_spec t.inputs hins _ _ _ hdrop2]
  dsimp only
  have hdrop3 := BufferParser.drop_after hdrop2
  have hpos3 : 0 + 4 + (to_varint_bytes t.inputs.length).length +
      ((t.inputs.map TransactionInput.serialize).flatten).length ≤
        (Transaction.serialize t).length := by
    have hdl3 := drop_len_eq hdrop3
    have hv1 := to_varint_bytes_length_pos t.outputs.length
    omega
  rw [BufferParser.extract_varint_spec hpos3 hdrop3 holen]
  dsimp only
  have hdrop4 := BufferParser.drop_after hdrop3
  rw [parseN_output_spec t.outputs houts _ _ _ hdrop4]
  dsimp only
  have hdrop5 := BufferParser.drop_after hdrop4
  rw [List.append_nil] at hdrop5
  have hpos5 : 0 + 4 + (to_varint_bytes t.inputs.length).length +
      ((t.inputs.map TransactionInput.serialize).flatten).length +
      (to_varint_bytes t.outputs.length).length +
      ((t.outputs.map TransactionOutput.serialize).flatten).length ≤
        (Transaction.serialize t).length := by
    have hdl5 := congrArg List.length hdrop5
    simp only [List.length_drop, leBytes_length] at hdl5
    omega
  rw [BufferParser.extract_le_spec hpos5 (by simpa using hdrop5)
    (by simpa using hlock)]

/-- Witness for C5 at a one-input, one-output transaction. -/
theorem transaction_parse_serialize_witness :
    Transaction.wf
      ⟨1, [⟨⟨List.replicate 32 7, 5⟩, [1, 2, 3], 0xFFFFFFFF⟩],
        [⟨40000000, [0x76, 0xA9]⟩], 0⟩ ∧
    Transaction.parseMsg (Transaction.serialize
      ⟨1, [⟨⟨List.replicate 32 7, 5⟩, [1, 2, 3], 0xFFFFFFFF⟩],
        [⟨40000000, [0x76, 0xA9]⟩], 0⟩) =
      .ok ⟨1, [⟨⟨List.replicate 32 7, 5⟩, [1, 2, 3], 0xFFFFFFFF⟩],
        [⟨40000000, [0x76, 0xA9]⟩], 0⟩ := by
  constructor
  · refine ⟨by norm_num, by norm_num, by norm_num, by norm_num, ?_, ?_⟩
    · intro i hi
      simp at hi
      subst hi
      exact ⟨⟨by norm_num, by norm_num, by norm_num⟩, by simp⟩
    · intro o ho
      simp at ho
      subst ho
      exact ⟨by norm_num, by norm_num⟩
  · exact transaction_parse_serialize _
      ⟨by norm_num, by norm_num, by norm_num, by norm_num,
        by intro i hi; simp at hi; subst hi;
           exact ⟨⟨by norm_num, by norm_num, by norm_num⟩, by simp⟩,
        by intro o ho; simp at ho; subst ho; exact ⟨by norm_num, by norm_num⟩⟩

/-- Alphabet of the base58 encoding used by the external bs58 crate. -/
def base58Alphabet : List Char :=
  "123456789ABCDEFGHJKLMNPQRSTUVWXYZabcdefghijkmnopqrstuvwxyz".toList

/-- Big-endian byte representation of a natural number, empty for zero; the
byte output convention of the bs58 crate. -/
def natBEBytes (n : Nat) : List Nat :=
  if h : n = 0 then [] else natBEBytes (n / 256) ++ [n % 256]
decreasing_by exact Nat.div_lt_self (Nat.pos_of_ne_zero h) (by norm_num)

/-- Base58 decoding as performed by the external bs58 crate: every
character must belong to the alphabet, the digits form a big-endian base-58
number, and each leading character 1 contributes one leading zero byte. -/
def bs58Decode (s : String) : Option (List Nat) :=
  let chars := s.toList
  match chars.mapM (fun c => base58Alphabet.indexOf? c) with
  | none => none
  | some digits =>
    let value := digits.foldl (fun acc d => acc * 58 + d) 0
    let zeros := (chars.takeWhile (fun c => c = '1')).length
    some (List.replicate zeros 0 ++ natBEBytes value)

/-- The function get_pubkey_hash from wallet.rs: base58-decode the public
key and keep bytes 1 through 20 of the result; the range get fails when the
decoded key is shorter than 21 bytes. -/
def get_pubkey_hash (pubkey : String) : Except CustomError (List Nat) :=
  match bs58Decode pubkey with
  | none => .error (.Validation "User PubKey incorrectly formatted")
  | some decoded =>
    if 21 ≤ decoded.length then .ok ((decoded.drop 1).take 20)
    else .error (.Validation "User PubKey incorrectly formatted")

/-- The function get_script_pubkey from wallet.rs: the standard
pay-to-public-key-hash script around the decoded 20-byte key hash. -/
def get_script_pubkey (pubkey : String) : Except CustomError (List Nat) :=
  match get_pubkey_hash pubkey with
  | .ok kh => .ok (0x76 :: 0xA9 :: 0x14 :: (kh ++ [0x88, 0xAC]))
  | .error e => .error e

/-- The helper compare_p2pkh from structs/tx_output.rs: after the leading
0x76 byte, expect 0xA9 and 0x14, then compare the next 20 bytes with the
key hash; the 20-byte read propagates its error. A wrong byte or a missing
byte in the first two positions yields false, not an error. -/
def compare_p2pkh (p : BufferParser) (public_key_hash : List Nat) :
    Except CustomError Bool :=
  match BufferParser.extract_u8 p with
  | (.ok b1, p1) =>
    if b1 = 0xA9 then
      match BufferParser.extract_u8 p1 with
      | (.ok b2, p2) =>
        if b2 = 0x14 then
          match p2.extract_buffer 20 with
          | (.ok hash, _) => .ok (decide (hash = public_key_hash))
          | (.error e, _) => .error e
        else .ok false
      | (.error _, _) => .ok false
    else .ok false
  | (.error _, _) => .ok false

/-- The method is_sent_to_key from structs/tx_output.rs: parse the script,
expect 0x76 first, then delegate to compare_p2pkh. -/
def TransactionOutput.is_sent_to_key (o : TransactionOutput)
    (public_key_hash : List Nat) : Except CustomError Bool :=
  match BufferParser.extract_u8 ⟨o.script_pubkey, 0⟩ with
  | (.ok b0, p1) => if b0 = 0x76 then compare_p2pkh p1 public_key_hash else .ok false
  | (.error _, _) => .ok false

/-- The variant of compare_p2pkh in messages/transaction.rs, which unwraps
the 20-byte read: an error there is a panic, modelled as none. -/
def compare_p2pkh_msgs (p : BufferParser) (public_key_hash : List Nat) :
    Option Bool :=
  match BufferParser.extract_u8 p with
  | (.ok b1, p1) =>
    if b1 = 0xA9 then
      match BufferParser.extract_u8 p1 with
      | (.ok b2, p2) =>
        if b2 = 0x14 then
          match p2.extract_buffer 20 with
          | (.ok hash, _) => some (decide (hash = public_key_hash))
          | (.error _, _) => none
        else some false
      | (.error _, _) => some false
    else some false
  | (.error _, _) => some false

/-- The variant of is_sent_to_key in messages/transaction.rs, returning a
plain Bool and panicking (none) when the script has the three prefix bytes
but fewer than 23 bytes in total. -/
def TransactionOutput.is_sent_to_key_msgs (o : TransactionOutput)
    (public_key_hash : List Nat) : Option Bool :=
  match BufferParser.extract_u8 ⟨o.script_pubkey, 0⟩ with
  | (.ok b0, p1) =>
    if b0 = 0x76 then compare_p2pkh_msgs p1 public_key_hash else some false
  | (.error _, _) => some false

theorem is_sent_to_key_ok_true_iff (v : Nat) (s : List Nat) (k : List Nat)
    (hk : k.length = 20) :
    TransactionOutput.is_sent_to_key ⟨v, s⟩ k = .ok true ↔
      ∃ rest, s = 0x76 :: 0xA9 :: 0x14 :: (k ++ rest) := by
  cases s with
  | nil =>
    simp only [TransactionOutput.is_sent_to_key]
    rw [show BufferParser.extract_u8 ⟨[], 0⟩ =
      (.error CustomError.SerializedBufferIsInvalid, ⟨[], 0⟩) from rfl]
    refine iff_of_false (by simp) ?_
    rintro ⟨rest, hr⟩
    simp at hr
  | cons b0 s1 =>
    simp only [TransactionOutput.is_sent_to_key]
    rw [BufferParser.extract_u8_run_ok (by simp)]
    dsimp only
    by_cases hb0 : b0 = 0x76
    · rw [if_pos (by simpa using hb0)]
      subst hb0
      cases s1 with
      | nil =>
        simp only [compare_p2pkh]
        rw [show BufferParser.extract_u8 ⟨[0x76], 1⟩ =
          (.error CustomError.SerializedBufferIsInvalid, ⟨[0x76], 1⟩) from rfl]
        refine iff_of_false (by simp) ?_
        rintro ⟨rest, hr⟩
        simp at hr
      | cons b1 s2 =>
        simp only [compare_p2pkh]
        rw [BufferParser.extract_u8_run_ok (by simp)]
        dsimp only
        by_cases hb1 : b1 = 0xA9
        · rw [if_pos (by simpa using hb1)]
          subst hb1
          cases s2 with
          | nil =>
            rw [show BufferParser.extract_u8 ⟨[0x76, 0xA9], 2⟩ =
              (.error CustomError.SerializedBufferIsInvalid, ⟨[0x76, 0xA9], 2⟩) from rfl]
            refine iff_of_false (by simp) ?_
            rintro ⟨rest, hr⟩
            simp at hr
          | cons b2 s3 =>
            rw [BufferParser.extract_u8_run_ok
              (by simp only [List.length_cons]; omega)]
            dsimp only
            by_cases hb2 : b2 = 0x14
            · rw [if_pos (by simpa using hb2)]
              subst hb2
              rw [BufferParser.extract_buffer_run]
              by_cases h20 : 20 ≤ s3.length
              · rw [if_pos (by simp only [List.length_cons]; omega)]
                dsimp only
                have hdrop3 : ((0x76 : Nat) :: 0xA9 :: 0x14 :: s3).drop 3 = s3 := rfl
                rw [hdrop3]
                constructor
                · intro hok
                  simp only [Except.ok.injEq, decide_eq_true_eq] at hok
                  refine ⟨s3.drop 20, ?_⟩
                  have : s3 = s3.take 20 ++ s3.drop 20 := (List.take_append_drop 20 s3).symm
                  rw [hok] at this
                  rw [← this]
                · rintro ⟨rest, hr⟩
                  simp only [List.cons.injEq, true_and] at hr
                  rw [hr]
                  rw [List.take_left' hk]
                  simp
              · rw [if_neg (by simp only [List.length_cons]; omega)]
                dsimp only
                refine iff_of_false (by simp) ?_
                rintro ⟨rest, hr⟩
                have := congrArg List.length hr
                simp only [List.length_cons, List.length_append, hk] at this
                omega
            · rw [if_neg (by simpa using hb2)]
              refine iff_of_false (by simp) ?_
              rintro ⟨rest, hr⟩
              simp only [List.cons.injEq] at hr
              exact hb2 hr.2.2.1
        · rw [if_neg (by simpa using hb1)]
          refine iff_of_false (by simp) ?_
          rintro ⟨rest, hr⟩
          simp only [List.cons.injEq] at hr
          exact hb1 hr.2.1
    · rw [if_neg (by simpa using hb0)]
      refine iff_of_false (by simp) ?_
      rintro ⟨rest, hr⟩
      simp only [List.cons.injEq] at hr
      exact hb0 hr.1

theorem is_sent_to_key_short_error (v : Nat) (r : List Nat) (k : List Nat)
    (hr : r.length < 20) :
    TransactionOutput.is_sent_to_key ⟨v, 0x76 :: 0xA9 :: 0x14 :: r⟩ k =
      .error .SerializedBufferIsInvalid := by
  simp only [TransactionOutput.is_sent_to_key]
  rw [BufferParser.extract_u8_run_ok (by simp)]
  dsimp only
  rw [show (((0x76 : Nat) :: 0xA9 :: 0x14 :: r).getD 0 0) = 0x76 from rfl, if_pos rfl]
  simp only [compare_p2pkh]
  rw [BufferParser.extract_u8_run_ok (by simp)]
  dsimp only
  rw [show (((0x76 : Nat) :: 0xA9 :: 0x14 :: r).getD 1 0) = 0xA9 from rfl, if_pos rfl]
  rw [BufferParser.extract_u8_run_ok (by simp only [List.length_cons]; omega)]
  dsimp only
  rw [show (((0x76 : Nat) :: 0xA9 :: 0x14 :: r).getD 2 0) = 0x14 from rfl, if_pos rfl]
  rw [BufferParser.extract_buffer_run,
    if_neg (by simp only [List.length_cons]; omega)]

/-- C3, amended: is_sent_to_key accepts exactly the scripts that START with
0x76 0xA9 0x14 followed by the 20 bytes of the key hash; the trailing
OP_EQUALVERIFY OP_CHECKSIG bytes and the total length are never checked, so
trailing garbage is accepted too. Scripts of the produced exact
pay-to-public-key-hash form are accepted in particular, and a script that
has the 3 prefix bytes but fewer than 23 bytes in total makes the
structs/tx_output.rs variant return an error. -/
theorem is_sent_to_key_spec (o : TransactionOutput) (k : List Nat)
    (hk : k.length = 20) :
    (TransactionOutput.is_sent_to_key o k = .ok true ↔
      ∃ rest, o.script_pubkey = 0x76 :: 0xA9 :: 0x14 :: (k ++ rest))
    ∧ (∀ pk kh, get_pubkey_hash pk = .ok kh →
        get_script_pubkey pk = .ok (0x76 :: 0xA9 :: 0x14 :: (kh ++ [0x88, 0xAC]))
        ∧ ∀ v, TransactionOutput.is_sent_to_key
            ⟨v, 0x76 :: 0xA9 :: 0x14 :: (kh ++ [0x88, 0xAC])⟩ kh = .ok true)
    ∧ (∀ v r, r.length < 20 →
        TransactionOutput.is_sent_to_key ⟨v, 0x76 :: 0xA9 :: 0x14 :: r⟩ k =
          .error .SerializedBufferIsInvalid) := by
  refine ⟨?_, ?_, ?_⟩
  · have := is_sent_to_key_ok_true_iff o.value o.script_pubkey k hk
    simpa using this
  · intro pk kh hpk
    have hkh : kh.length = 20 := by
      simp only [get_pubkey_hash] at hpk
      rcases hbs : bs58Decode pk with _ | decoded
      · rw [hbs] at hpk
        simp at hpk
      · rw [hbs] at hpk
        dsimp only at hpk
        by_cases h21 : 21 ≤ decoded.length
        · rw [if_pos h21] at hpk
          simp only [Except.ok.injEq] at hpk
          rw [← hpk]
          simp only [List.length_take, List.length_drop]
          omega
        · rw [if_neg h21] at hpk
          simp at hpk
    constructor
    · simp only [get_script_pubkey, hpk]
    · intro v
      rw [is_sent_to_key_ok_true_iff v _ kh hkh]
      exact ⟨[0x88, 0xAC], rfl⟩
  · intro v r hlt
    exact is_sent_to_key_short_error v r k hlt

/-- Witness for C3 at the all-zero 20-byte key hash and the exact
pay-to-public-key-hash script for it. -/
theorem is_sent_to_key_spec_witness :
    (List.replicate 20 0).length = 20 ∧
    ((TransactionOutput.is_sent_to_key
        ⟨7, 0x76 :: 0xA9 :: 0x14 :: (List.replicate 20 0 ++ [0x88, 0xAC])⟩
        (List.replicate 20 0) = .ok true ↔
      ∃ rest, 0x76 :: 0xA9 :: 0x14 :: (List.replicate 20 0 ++ [0x88, 0xAC]) =
        0x76 :: 0xA9 :: 0x14 :: (List.replicate 20 0 ++ rest))
    ∧ (∀ pk kh, get_pubkey_hash pk = .ok kh →
        get_script_pubkey pk = .ok (0x76 :: 0xA9 :: 0x14 :: (kh ++ [0x88, 0xAC]))
        ∧ ∀ v, TransactionOutput.is_sent_to_key
            ⟨v, 0x76 :: 0xA9 :: 0x14 :: (kh ++ [0x88, 0xAC])⟩ kh = .ok true)
    ∧ (∀ v r, r.length < 20 →
        TransactionOutput.is_sent_to_key ⟨v, 0x76 :: 0xA9 :: 0x14 :: r⟩
          (List.replicate 20 0) = .error .SerializedBufferIsInvalid)) :=
  ⟨by decide,
   is_sent_to_key_spec ⟨7, 0x76 :: 0xA9 :: 0x14 :: (List.replicate 20 0 ++ [0x88, 0xAC])⟩
     (List.replicate 20 0) (by decide)⟩

/-- Counterexample to C3 as stated: a 23-byte script that stops right after
the key hash, with no OP_EQUALVERIFY OP_CHECKSIG, is accepted, although it
is not exactly the pay-to-public-key-hash script. -/
theorem is_sent_to_key_counterexample :
    TransactionOutput.is_sent_to_key
      ⟨0, 0x76 :: 0xA9 :: 0x14 :: List.replicate 20 0⟩ (List.replicate 20 0) =
        .ok true
    ∧ 0x76 :: 0xA9 :: 0x14 :: List.replicate 20 0 ≠
        0x76 :: 0xA9 :: 0x14 :: (List.replicate 20 0 ++ [0x88, 0xAC]) := by
  constructor
  · rfl
  · decide

/-- Movement record, from wallet.rs: note that the value field is u64, an
unsigned machine integer. -/
structure Movement where
  tx_hash : List Nat
  value : Nat
  block_hash : Option (List Nat)
deriving DecidableEq, Repr

/-- Modelled from the spec: the UTXO set used by messages/transaction.rs
(the module utxo.rs is not under src): a map from outpoints to unspent
outputs, here an association list queried by first match. -/
structure UTXO where
  tx_set : List (OutPoint × TransactionOutput)
deriving Repr

def UTXO.get (u : UTXO) (op : OutPoint) : Option TransactionOutput :=
  (u.tx_set.find? (fun e => decide (e.1 = op))).map Prod.snd

/-- The first loop of Transaction::get_movement: add the value of every
output owned by the key, in u64 arithmetic; none models a panic inside
is_sent_to_key. -/
def sumOwnedOutputs (k : List Nat) : List TransactionOutput → Nat → Option Nat
| [], acc => some acc
| o :: rest, acc =>
  match o.is_sent_to_key_msgs k with
  | none => none
  | some true => sumOwnedOutputs k rest ((acc + o.value) % 2 ^ 64)
  | some false => sumOwnedOutputs k rest acc

/-- The second loop of Transaction::get_movement: subtract the value of
every input whose previous output is in the UTXO and owned by the key. The
subtraction is u64 arithmetic and wraps below zero. -/
def subOwnedInputs (k : List Nat) (u : UTXO) : List TransactionInput → Nat → Option Nat
| [], acc => some acc
| i :: rest, acc =>
  match u.get i.previous_output with
  | some o =>
    match o.is_sent_to_key_msgs k with
    | none => none
    | some true => subOwnedInputs k u rest ((acc + 2 ^ 64 - o.value % 2 ^ 64) % 2 ^ 64)
    | some false => subOwnedInputs k u rest acc
  | none => subOwnedInputs k u rest acc

/-- Transaction::get_movement from messages/transaction.rs. The txHash
argument stands for self.hash(), the double-SHA256 of the serialization
computed by the external bitcoin_hashes crate. The outer Option is none
when the computation panics. -/
def Transaction.get_movement (txHash : List Nat) (t : Transaction)
    (public_key_hash : List Nat) (utxo : UTXO) : Option (Option Movement) :=
  match sumOwnedOutputs public_key_hash t.outputs 0 with
  | none => none
  | some v1 =>
    match subOwnedInputs public_key_hash utxo t.inputs v1 with
    | none => none
    | some value =>
      if value ≠ 0 then some (some ⟨txHash, value, none⟩) else some none

/-- Modelled from the spec: a UTXO entry of the node state carries the
output and the hash of the containing block (states/utxo_state.rs is not
under src). -/
structure UTXOValue where
  tx_out : TransactionOutput
  block_hash : List Nat
deriving DecidableEq, Repr

/-- Modelled from the spec: the UTXO engine state, an association list from
outpoints to entries. -/
structure UTXOState where
  tx_set : List (OutPoint × UTXOValue)
deriving Repr

def UTXOState.toUTXO (u : UTXOState) : UTXO :=
  ⟨u.tx_set.map (fun e => (e.1, e.2.tx_out))⟩

/-- Wallet record, from wallet.rs. -/
structure Wallet where
  name : String
  pubkey : String
  privkey : String
  history : List Movement
deriving Repr

/-- Ownership test of the spec: an entry is owned by a wallet key hash iff
its script is exactly the pay-to-public-key-hash script for it. -/
def ownedScript (kh : List Nat) : List Nat :=
  0x76 :: 0xA9 :: 0x14 :: (kh ++ [0x88, 0xAC])

/-- Modelled from the spec: wallet_utxo returns the UTXO entries whose
script pays the wallet key hash (states/utxo_state.rs is not under src);
the base58 decoding of the wallet public key can fail. -/
def UTXOState.generate_wallet_utxo (u : UTXOState) (w : Wallet) :
    Except CustomError (List (OutPoint × UTXOValue)) :=
  match get_pubkey_hash w.pubkey with
  | .error e => .error e
  | .ok kh =>
    .ok (u.tx_set.filter (fun e => decide (e.2.tx_out.script_pubkey = ownedScript kh)))

/-- Modelled from the spec: wallet_balance sums the values of the owned
entries. -/
def UTXOState.wallet_balance (u : UTXOState) (w : Wallet) : Except CustomError Nat :=
  match u.generate_wallet_utxo w with
  | .ok entries => .ok ((entries.map (fun e => e.2.tx_out.value)).sum)
  | .error e => .error e

/-- Modelled from the spec: the wallets store holds the wallets and the
optional active selection (states/wallets_state.rs is not under src). -/
structure WalletsState where
  wallets : List Wallet
  active : Option Wallet
deriving Repr

/-- Block, from the spec data model: a header plus ordered transactions
(messages/block.rs is not under src). -/
structure Block where
  header : BlockHeader
  transactions : List Transaction
deriving Repr

/-- Node state, from node_state.rs; the components whose modules are not
under src are modelled from the spec. The txHash field stands for the
double-SHA256 of a transaction serialization, computed by the external
bitcoin_hashes crate. The pending_blocks entries pair a header hash with
its request timestamp. -/
structure NodeState where
  wallets : WalletsState
  utxo : UTXOState
  headers : List BlockHeader
  blocks : List (List Nat × Block)
  pending_blocks : List (List Nat × Nat)
  pending_txs : List (List Nat × Transaction)
  txHash : Transaction → List Nat

/-- NodeState::is_block_pending: membership of the hash in PendingBlocks. -/
def NodeState.is_block_pending (s : NodeState) (block_hash : List Nat) : Bool :=
  s.pending_blocks.any (fun e => decide (e.1 = block_hash))

/-- The output loop of Transaction::create from messages/transaction.rs:
build one output per map entry, deriving its script from the recipient
public key; a key that fails base58 decoding aborts the construction. -/
def createOutputs : List (String × Nat) → Except CustomError (List TransactionOutput)
| [] => .ok []
| kv :: rest =>
  match get_script_pubkey kv.1 with
  | .error e => .error e
  | .ok spk =>
    match createOutputs rest with
    | .ok touts => .ok (⟨kv.2, spk⟩ :: touts)
    | .error e => .error e

/-- Transaction::create from messages/transaction.rs: version 1, lock time
0, one input per outpoint with sequence 0xFFFFFFFF and the sender script as
placeholder script_sig, and the requested outputs. -/
def Transaction.create (sender_wallet : Wallet) (inputs_outpoints : List OutPoint)
    (outputs : List (String × Nat)) : Except CustomError Transaction :=
  match get_script_pubkey sender_wallet.pubkey with
  | .error e => .error e
  | .ok script_pubkey =>
    match createOutputs outputs with
    | .error e => .error e
    | .ok touts =>
      .ok ⟨1, inputs_outpoints.map (fun op => ⟨op, script_pubkey, 0xFFFFFFFF⟩),
        touts, 0⟩

/-- The selection loop calculate_inputs from node_state.rs: push outpoints
in order, accumulating their values in u64 arithmetic, and stop as soon as
the accumulated value reaches the requested total. -/
def calculate_inputs_go (total_value : Nat) :
    List (OutPoint × UTXOValue) → Nat → List OutPoint × Nat
| [], acc => ([], acc)
| e :: rest, acc =>
  let acc1 := (acc + e.2.tx_out.value) % 2 ^ 64
  if total_value ≤ acc1 then ([e.1], acc1)
  else
    let r := calculate_inputs_go total_value rest acc1
    (e.1 :: r.1, r.2)

def calculate_inputs (active_wallet_utxo : List (OutPoint × UTXOValue))
    (total_value : Nat) : List OutPoint × Nat :=
  calculate_inputs_go total_value active_wallet_utxo 0

def NodeState.get_active_wallet_balance (s : NodeState) : Except CustomError Nat :=
  match s.wallets.active with
  | none => .error .WalletNotFound
  | some w => s.utxo.wallet_balance w

def NodeState.get_active_wallet_utxo (s : NodeState) :
    Except CustomError (List (OutPoint × UTXOValue)) :=
  match s.wallets.active with
  | none => .error .WalletNotFound
  | some w => s.utxo.generate_wallet_utxo w

/-- NodeState::calculate_total_value: the fee plus all requested values in
u64 arithmetic, checked against the active wallet balance. -/
def NodeState.calculate_total_value (s : NodeState) (fee : Nat)
    (outputs : List (String × Nat)) : Except CustomError Nat :=
  let total_value := outputs.foldl (fun acc kv => (acc + kv.2) % 2 ^ 64) fee
  match s.get_active_wallet_balance with
  | .error e => .error e
  | .ok wallet_balance =>
    if wallet_balance < total_value then .error .InsufficientFunds
    else .ok total_value

/-- Insertion into the outputs map, mirroring HashMap::insert: replace the
value when the key is present, add the pair otherwise. -/
def insertMap (m : List (String × Nat)) (key : String) (v : Nat) :
    List (String × Nat) :=
  if m.any (fun kv => decide (kv.1 = key)) then
    m.map (fun kv => if kv.1 = key then (key, v) else kv)
  else m ++ [(key, v)]

/-- The descending stable order used by make_transaction: sort_by with the
comparator comparing values in reverse. -/
def utxoValueDescOrder (a b : OutPoint × UTXOValue) : Prop :=
  b.2.tx_out.value ≤ a.2.tx_out.value

instance : DecidableRel utxoValueDescOrder := fun a b =>
  inferInstanceAs (Decidable (b.2.tx_out.value ≤ a.2.tx_out.value))

/-- NodeState::make_transaction from node_state.rs: require an active
wallet, compute the total, select inputs greedily from the owned entries
sorted by value descending (sort_by is a stable sort, modelled by the
stable insertion sort), insert positive change back to the sender pubkey
into the outputs map, and build the transaction. -/
def NodeState.make_transaction (s : NodeState) (outputs : List (String × Nat))
    (fee : Nat) : Except CustomError Transaction :=
  match s.wallets.active with
  | none => .error .WalletNotFound
  | some active_wallet =>
    match s.calculate_total_value fee outputs with
    | .error e => .error e
    | .ok total_value =>
      match s.get_active_wallet_utxo with
      | .error e => .error e
      | .ok wallet_utxo =>
        let sorted := List.insertionSort utxoValueDescOrder wallet_utxo
        let r := calculate_inputs sorted total_value
        let change := (r.2 + 2 ^ 64 - total_value) % 2 ^ 64
        let outputs1 :=
          if 0 < change then insertMap outputs active_wallet.pubkey change
          else outputs
        Transaction.create active_wallet r.1 outputs1

/-- C4, code evaluated at the failing input: a transaction with one input
that spends an owned unspent output of value 5 and no outputs. The movement
value is computed in u64 arithmetic, so the net spend of 5 is recorded as
2 ^ 64 - 5 (release profile; the debug profile panics on the subtraction),
which is not the signed value -5 that the specification assigns; the type
of the value field cannot represent a negative delta at all. -/
theorem get_movement_net_spend_wraps :
    Transaction.get_movement []
      ⟨1, [⟨⟨List.replicate 32 1, 0⟩, [], 0xFFFFFFFF⟩], [], 0⟩
      (List.replicate 20 0)
      ⟨[(⟨List.replicate 32 1, 0⟩, ⟨5, ownedScript (List.replicate 20 0)⟩)]⟩ =
      some (some ⟨[], 2 ^ 64 - 5, none⟩)
    ∧ 2 ^ 63 < 2 ^ 64 - 5 := by
  constructor
  · rfl
  · norm_num

/-- Modelled from the spec: forward UTXO update for a newly stored block
(states/utxo_state.rs is not under src): remove every spent outpoint and
insert every output of every transaction under its outpoint. -/
def UTXOState.update_from_block (txHash : Transaction → List Nat)
    (u : UTXOState) (b : Block) : UTXOState :=
  b.transactions.foldl (fun acc t =>
    let kept := acc.tx_set.filter
      (fun e => ¬ t.inputs.any (fun i => decide (i.previous_output = e.1)))
    let added := t.outputs.enum.map
      (fun p => (OutPoint.mk (txHash t) p.1, UTXOValue.mk p.2 b.header.hash))
    ⟨kept ++ added⟩) u

/-- Modelled from the spec: per-wallet update on a new block
(states/wallets_state.rs is not under src): derive the movement of each
transaction through the repository function get_movement and append the
non-zero ones with the block hash. The outer Option is none when
get_movement panics. -/
def Wallet.update_from_block (txHash : Transaction → List Nat) (w : Wallet)
    (b : Block) (u : UTXO) : Option (Except CustomError Wallet) :=
  match get_pubkey_hash w.pubkey with
  | .error e => some (.error e)
  | .ok kh =>
    match b.transactions.foldl (fun acc t => acc.bind (fun w1 =>
      match Transaction.get_movement (txHash t) t kh u with
      | none => none
      | some none => some w1
      | some (some m) =>
        some { w1 with
          history := w1.history ++ [⟨m.tx_hash, m.value, some b.header.hash⟩] }))
      (some w) with
    | none => none
    | some w2 => some (.ok w2)

/-- Modelled from the spec: update every wallet of the store in order,
propagating panics and errors. -/
def updateWalletsList (txHash : Transaction → List Nat) :
    List Wallet → Block → UTXO → Option (Except CustomError (List Wallet))
| [], _, _ => some (.ok [])
| w :: rest, b, u =>
  match Wallet.update_from_block txHash w b u with
  | none => none
  | some (.error e) => some (.error e)
  | some (.ok w1) =>
    match updateWalletsList txHash rest b u with
    | none => none
    | some (.error e) => some (.error e)
    | some (.ok ws) => some (.ok (w1 :: ws))

/-- Modelled from the spec: NodeState::append_block (section 4.4 and 4.9):
persist the block, remove its hash from PendingBlocks, mark the header
downloaded, update the wallets and the pending pool, and apply the block to
the UTXO. The sync gating and the genesis UTXO build are outside this
model; no claim depends on them. The outer Option is none when a wallet
update panics. -/
def NodeState.append_block (s : NodeState) (block_hash : List Nat) (b : Block) :
    Option (Except CustomError NodeState) :=
  let s1 := { s with
    blocks := s.blocks ++ [(block_hash, b)],
    pending_blocks := s.pending_blocks.filter (fun e => decide (e.1 ≠ block_hash)),
    headers := s.headers.map (fun hd : BlockHeader =>
      if hd.hash = block_hash then { hd with block_downloaded := true } else hd) }
  match updateWalletsList s.txHash s1.wallets.wallets b s1.utxo.toUTXO with
  | none => none
  | some (.error e) => some (.error e)
  | some (.ok ws) =>
    some (.ok { s1 with
      wallets := ⟨ws, s1.wallets.active⟩,
      pending_txs := s1.pending_txs.filter
        (fun kv => ¬ (b.transactions.map s.txHash).contains kv.1),
      utxo := s1.utxo.update_from_block s.txHash b })

/-- NodeActionLoop::handle_block from node_action_loop.rs: drop the block
unless its hash is pending, otherwise append it. -/
def NodeActionLoop.handle_block (s : NodeState) (block_hash : List Nat)
    (b : Block) : Option (Except CustomError NodeState) :=
  if ¬ s.is_block_pending block_hash then some (.ok s)
  else s.append_block block_hash b

/-- C8: a Block action whose hash is not pending returns success and leaves
the node state unchanged: nothing is persisted, no header flag, UTXO,
wallet or pending pool is touched, since the very same state is returned. -/
theorem handle_block_not_pending_frame (s : NodeState) (block_hash : List Nat)
    (b : Block) (h : s.is_block_pending block_hash = false) :
    NodeActionLoop.handle_block s block_hash b = some (.ok s) := by
  simp [NodeActionLoop.handle_block, h]

/-- Witness for C8 at an empty node state with an empty pending set. -/
theorem handle_block_not_pending_frame_witness :
    (NodeState.is_block_pending
      ⟨⟨[], none⟩, ⟨[]⟩, [], [], [], [], fun _ => []⟩ [1] = false)
    ∧ NodeActionLoop.handle_block
        ⟨⟨[], none⟩, ⟨[]⟩, [], [], [], [], fun _ => []⟩ [1]
        ⟨⟨0, [], [], 0, 0, 0, [], false, false⟩, []⟩ =
      some (.ok ⟨⟨[], none⟩, ⟨[]⟩, [], [], [], [], fun _ => []⟩) :=
  ⟨rfl, handle_block_not_pending_frame _ [1] _ rfl⟩

/-- The owned UTXO entries of a key hash, the value returned by
generate_wallet_utxo on a wallet whose pubkey decodes to that hash. -/
def NodeState.ownedUTXO (s : NodeState) (kh : List Nat) :
    List (OutPoint × UTXOValue) :=
  s.utxo.tx_set.filter (fun e => decide (e.2.tx_out.script_pubkey = ownedScript kh))

instance : IsTotal (OutPoint × UTXOValue) utxoValueDescOrder :=
  ⟨fun a b => by
    unfold utxoValueDescOrder
    omega⟩

instance : IsTrans (OutPoint × UTXOValue) utxoValueDescOrder :=
  ⟨fun a b c h1 h2 => by
    unfold utxoValueDescOrder at *
    omega⟩

theorem foldl_wrap_eq_sum (l : List (String × Nat)) (acc : Nat)
    (h : acc + (l.map Prod.snd).sum < 2 ^ 64) :
    l.foldl (fun a kv => (a + kv.2) % 2 ^ 64) acc = acc + (l.map Prod.snd).sum := by
  induction l generalizing acc with
  | nil => simp
  | cons kv rest ih =>
    simp only [List.foldl_cons, List.map_cons, List.sum_cons] at *
    have hmod : (acc + kv.2) % 2 ^ 64 = acc + kv.2 := Nat.mod_eq_of_lt (by omega)
    rw [hmod, ih (acc + kv.2) (by omega)]
    ring

theorem sum_map_take_le {α : Type} (f : α → Nat) (l : List α) (n : Nat) :
    ((l.take n).map f).sum ≤ (l.map f).sum := by
  conv_rhs => rw [← List.take_append_drop n l]
  rw [List.map_append, List.sum_append]
  omega

theorem calculate_inputs_go_spec (total : Nat) :
    ∀ (l : List (OutPoint × UTXOValue)) (acc : Nat),
    acc + (l.map (fun e => e.2.tx_out.value)).sum < 2 ^ 64 →
    ∃ n, n ≤ l.length ∧
      calculate_inputs_go total l acc =
        ((l.take n).map Prod.fst,
          acc + ((l.take n).map (fun e => e.2.tx_out.value)).sum) ∧
      (total ≤ acc + ((l.take n).map (fun e => e.2.tx_out.value)).sum ∨ n = l.length) ∧
      (∀ m, 0 < m → m < n →
        acc + ((l.take m).map (fun e => e.2.tx_out.value)).sum < total) ∧
      (l ≠ [] → 0 < n) := by
  intro l
  induction l with
  | nil =>
    intro acc hlt
    refine ⟨0, by simp, ?_, Or.inr rfl, by omega, by simp⟩
    simp [calculate_inputs_go]
  | cons e rest ih =>
    intro acc hlt
    simp only [List.map_cons, List.sum_cons] at hlt
    have hmod : (acc + e.2.tx_out.value) % 2 ^ 64 = acc + e.2.tx_out.value :=
      Nat.mod_eq_of_lt (by omega)
    by_cases hstop : total ≤ (acc + e.2.tx_out.value) % 2 ^ 64
    · have hstop2 : total ≤ acc + e.2.tx_out.value := by
        rw [hmod] at hstop
        exact hstop
      refine ⟨1, by simp, ?_, ?_, by omega, by omega⟩
      · simp only [calculate_inputs_go, hmod]
        rw [if_pos hstop2]
        rw [show ((e :: rest).take 1) = [e] from rfl]
        simp
      · left
        simpa using hstop2
    · have hstop2 : ¬ total ≤ acc + e.2.tx_out.value := by
        rw [hmod] at hstop
        exact hstop
      obtain ⟨n, hn_le, heq, hor, hmid, hpos⟩ :=
        ih (acc + e.2.tx_out.value) (by omega)
      refine ⟨n + 1, by simpa using hn_le, ?_, ?_, ?_, by omega⟩
      · simp only [calculate_inputs_go, hmod]
        rw [if_neg hstop2]
        rw [heq]
        simp only [List.take_succ_cons, List.map_cons, List.sum_cons]
        rw [Nat.add_assoc]
      · rcases hor with h1 | h1
        · left
          simp only [List.take_succ_cons, List.map_cons, List.sum_cons]
          omega
        · right
          simp [h1]
      · intro m hm0 hmn
        cases m with
        | zero => omega
        | succ m1 =>
          simp only [List.take_succ_cons, List.map_cons, List.sum_cons]
          cases Nat.eq_zero_or_pos m1 with
          | inl hz =>
            subst hz
            simp only [List.take_zero, List.map_nil, List.sum_nil]
            rw [hmod] at hstop
            omega
          | inr hpos1 =>
            have := hmid m1 hpos1 (by omega)
            omega

theorem insertMap_not_mem (m : List (String × Nat)) (key : String) (v : Nat)
    (h : ∀ kv ∈ m, kv.1 ≠ key) :
    insertMap m key v = m ++ [(key, v)] := by
  unfold insertMap
  have hc : ¬ (m.any (fun kv => decide (kv.1 = key)) = true) := by
    simp only [List.any_eq_true, decide_eq_true_eq]
    rintro ⟨kv, hkv, hkey⟩
    exact h kv hkv hkey
  rw [if_neg hc]

theorem insertMap_mem (m : List (String × Nat)) (key : String) (v : Nat)
    (h : ∃ kv ∈ m, kv.1 = key) :
    insertMap m key v = m.map (fun kv => if kv.1 = key then (key, v) else kv) := by
  unfold insertMap
  have hc : m.any (fun kv => decide (kv.1 = key)) = true := by
    simp only [List.any_eq_true, decide_eq_true_eq]
    exact h
  rw [if_pos hc]

theorem insertMap_mem_cases (m : List (String × Nat)) (key : String) (v : Nat) :
    ∀ kv ∈ insertMap m key v, kv ∈ m ∨ kv.1 = key := by
  intro kv hkv
  unfold insertMap at hkv
  by_cases hc : m.any (fun kv => decide (kv.1 = key))
  · rw [if_pos hc] at hkv
    obtain ⟨orig, horig, himg⟩ := List.mem_map.mp hkv
    by_cases he : orig.1 = key
    · rw [if_pos he] at himg
      right
      rw [← himg]
    · rw [if_neg he] at himg
      left
      rw [← himg]
      exact horig
  · rw [if_neg hc] at hkv
    rcases List.mem_append.mp hkv with h1 | h1
    · exact Or.inl h1
    · right
      simp at h1
      rw [h1]

theorem createOutputs_spec (scripts : String → List Nat)
    (l : List (String × Nat))
    (h : ∀ kv ∈ l, get_script_pubkey kv.1 = .ok (scripts kv.1)) :
    createOutputs l = .ok (l.map (fun kv => ⟨kv.2, scripts kv.1⟩)) := by
  induction l with
  | nil => rfl
  | cons kv rest ih =>
    simp only [createOutputs]
    rw [h kv (List.mem_cons_self kv rest)]
    rw [ih (fun x hx => h x (List.mem_cons_of_mem kv hx))]
    simp

theorem get_script_pubkey_of_hash (pk : String) (kh : List Nat)
    (h : get_pubkey_hash pk = .ok kh) :
    get_script_pubkey pk = .ok (ownedScript kh) := by
  unfold get_script_pubkey
  rw [h]
  rfl

theorem calculate_total_value_ok (s : NodeState) (w : Wallet) (kh : List Nat)
    (outputs : List (String × Nat)) (fee : Nat)
    (hw : s.wallets.active = some w)
    (hkh : get_pubkey_hash w.pubkey = .ok kh)
    (hsum : fee + (outputs.map Prod.snd).sum < 2 ^ 64)
    (hle : fee + (outputs.map Prod.snd).sum ≤
      ((s.ownedUTXO kh).map (fun e => e.2.tx_out.value)).sum) :
    s.calculate_total_value fee outputs = .ok (fee + (outputs.map Prod.snd).sum) := by
  unfold NodeState.calculate_total_value NodeState.get_active_wallet_balance
  rw [hw]
  dsimp only
  unfold UTXOState.wallet_balance UTXOState.generate_wallet_utxo
  rw [hkh]
  dsimp only
  rw [foldl_wrap_eq_sum outputs fee hsum]
  rw [show (List.filter (fun e => decide (e.2.tx_out.script_pubkey = ownedScript kh))
    s.utxo.tx_set) = s.ownedUTXO kh from rfl]
  rw [if_neg (Nat.not_lt.mpr hle)]

theorem get_active_wallet_utxo_ok (s : NodeState) (w : Wallet) (kh : List Nat)
    (hw : s.wallets.active = some w)
    (hkh : get_pubkey_hash w.pubkey = .ok kh) :
    s.get_active_wallet_utxo = .ok (s.ownedUTXO kh) := by
  unfold NodeState.get_active_wallet_utxo
  rw [hw]
  dsimp only
  unfold UTXOState.generate_wallet_utxo
  rw [hkh]
  rfl

theorem make_transaction_ok (s : NodeState) (w : Wallet) (kh : List Nat)
    (scripts : String → List Nat) (outputs : List (String × Nat)) (fee : Nat)
    (hw : s.wallets.active = some w)
    (hkh : get_pubkey_hash w.pubkey = .ok kh)
    (hscripts : ∀ kv ∈ outputs, get_script_pubkey kv.1 = .ok (scripts kv.1))
    (hsender : scripts w.pubkey = ownedScript kh)
    (hsum : fee + (outputs.map Prod.snd).sum < 2 ^ 64)
    (hbal : ((s.ownedUTXO kh).map (fun e => e.2.tx_out.value)).sum < 2 ^ 64)
    (hle : fee + (outputs.map Prod.snd).sum ≤
      ((s.ownedUTXO kh).map (fun e => e.2.tx_out.value)).sum) :
    s.make_transaction outputs fee = .ok
      ⟨1,
       (calculate_inputs (List.insertionSort utxoValueDescOrder (s.ownedUTXO kh))
          (fee + (outputs.map Prod.snd).sum)).1.map
         (fun op => ⟨op, ownedScript kh, 0xFFFFFFFF⟩),
       (if fee + (outputs.map Prod.snd).sum <
            (calculate_inputs (List.insertionSort utxoValueDescOrder (s.ownedUTXO kh))
              (fee + (outputs.map Prod.snd).sum)).2 then
          insertMap outputs w.pubkey
            ((calculate_inputs (List.insertionSort utxoValueDescOrder (s.ownedUTXO kh))
                (fee + (outputs.map Prod.snd).sum)).2 -
              (fee + (outputs.map Prod.snd).sum))
        else outputs).map (fun kv => (⟨kv.2, scripts kv.1⟩ : TransactionOutput)),
       0⟩ := by
  have hctv := calculate_total_value_ok s w kh outputs fee hw hkh hsum hle
  have hutxo := get_active_wallet_utxo_ok s w kh hw hkh
  have hperm := List.perm_insertionSort utxoValueDescOrder (s.ownedUTXO kh)
  have hsum_sorted :
      ((List.insertionSort utxoValueDescOrder (s.ownedUTXO kh)).map
        (fun e => e.2.tx_out.value)).sum =
      ((s.ownedUTXO kh).map (fun e => e.2.tx_out.value)).sum :=
    (hperm.map (fun e => e.2.tx_out.value)).sum_eq
  obtain ⟨n, hn_le, heq, hor, hmid, hpos⟩ :=
    calculate_inputs_go_spec (fee + (outputs.map Prod.snd).sum)
      (List.insertionSort utxoValueDescOrder (s.ownedUTXO kh)) 0
      (by rw [hsum_sorted]; omega)
  have hr_eq : calculate_inputs
      (List.insertionSort utxoValueDescOrder (s.ownedUTXO kh))
      (fee + (outputs.map Prod.snd).sum) =
      (((List.insertionSort utxoValueDescOrder (s.ownedUTXO kh)).take n).map Prod.fst,
        0 + (((List.insertionSort utxoValueDescOrder (s.ownedUTXO kh)).take n).map
          (fun e => e.2.tx_out.value)).sum) := heq
  have hr2_le : (calculate_inputs
      (List.insertionSort utxoValueDescOrder (s.ownedUTXO kh))
      (fee + (outputs.map Prod.snd).sum)).2 ≤
      ((s.ownedUTXO kh).map (fun e => e.2.tx_out.value)).sum := by
    rw [hr_eq]
    have := sum_map_take_le (fun e => e.2.tx_out.value)
      (List.insertionSort utxoValueDescOrder (s.ownedUTXO kh)) n
    omega
  have hr2_ge : fee + (outputs.map Prod.snd).sum ≤
      (calculate_inputs (List.insertionSort utxoValueDescOrder (s.ownedUTXO kh))
        (fee + (outputs.map Prod.snd).sum)).2 := by
    rcases hor with h1 | h1
    · rw [hr_eq]
      omega
    · rw [hr_eq, h1, List.take_length]
      rw [hsum_sorted]
      omega
  have hscripts1 : ∀ change, ∀ kv ∈ insertMap outputs w.pubkey change,
      get_script_pubkey kv.1 = .ok (scripts kv.1) := by
    intro change kv hkv
    rcases insertMap_mem_cases outputs w.pubkey change kv hkv with hm | hk
    · exact hscripts kv hm
    · rw [hk, hsender]
      exact get_script_pubkey_of_hash w.pubkey kh hkh
  simp only [NodeState.make_transaction, hw]
  rw [hctv]
  dsimp only
  rw [hutxo]
  dsimp only
  have hchange : ((calculate_inputs
      (List.insertionSort utxoValueDescOrder (s.ownedUTXO kh))
      (fee + (outputs.map Prod.snd).sum)).2 + 2 ^ 64 -
        (fee + (outputs.map Prod.snd).sum)) % 2 ^ 64 =
      (calculate_inputs (List.insertionSort utxoValueDescOrder (s.ownedUTXO kh))
        (fee + (outputs.map Prod.snd).sum)).2 -
        (fee + (outputs.map Prod.snd).sum) := by
    omega
  rw [hchange]
  by_cases hc : fee + (outputs.map Prod.snd).sum <
      (calculate_inputs (List.insertionSort utxoValueDescOrder (s.ownedUTXO kh))
        (fee + (outputs.map Prod.snd).sum)).2
  · rw [if_pos (by omega), if_pos hc]
    unfold Transaction.create
    rw [get_script_pubkey_of_hash w.pubkey kh hkh]
    dsimp only
    rw [createOutputs_spec scripts _ (hscripts1 _)]
  · rw [if_neg (by omega), if_neg hc]
    unfold Transaction.create
    rw [get_script_pubkey_of_hash w.pubkey kh hkh]
    dsimp only
    rw [createOutputs_spec scripts _ hscripts]

theorem calculate_total_value_insufficient (s : NodeState) (w : Wallet) (kh : List Nat)
    (outputs : List (String × Nat)) (fee : Nat)
    (hw : s.wallets.active = some w)
    (hkh : get_pubkey_hash w.pubkey = .ok kh)
    (hsum : fee + (outputs.map Prod.snd).sum < 2 ^ 64)
    (hlt : ((s.ownedUTXO kh).map (fun e => e.2.tx_out.value)).sum <
      fee + (outputs.map Prod.snd).sum) :
    s.calculate_total_value fee outputs = .error .InsufficientFunds := by
  unfold NodeState.calculate_total_value NodeState.get_active_wallet_balance
  rw [hw]
  dsimp only
  unfold UTXOState.wallet_balance UTXOState.generate_wallet_utxo
  rw [hkh]
  dsimp only
  rw [foldl_wrap_eq_sum outputs fee hsum]
  rw [show (List.filter (fun e => decide (e.2.tx_out.script_pubkey = ownedScript kh))
    s.utxo.tx_set) = s.ownedUTXO kh from rfl]
  rw [if_pos hlt]

/-- C1, amended: with an active wallet, make_transaction computes the total
as the fee plus the requested values, fails with InsufficientFunds exactly
when the total exceeds the wallet balance, and otherwise emits a
transaction with version 1, lock time 0, inputs taken greedily from the
owned entries sorted by value descending (stopping at the first point where
the accumulated value reaches the total), every input carrying sequence
0xFFFFFFFF and the sender P2PKH script as script_sig placeholder, and the
requested outputs; when the selected value strictly exceeds the total, the
change is inserted into the outputs map under the sender pubkey, which adds
one additional change output only when the sender is not already among the
recipients (an existing entry is overwritten instead, see the related
overwrite property). Without an active wallet it fails with WalletNotFound.
The hypotheses require the pubkeys to decode (base58) and the sums to fit
in 64 bits, as the Rust types do. -/
theorem make_transaction_spec (s : NodeState) (w : Wallet) (kh : List Nat)
    (scripts : String → List Nat) (outputs : List (String × Nat)) (fee : Nat)
    (hw : s.wallets.active = some w)
    (hkh : get_pubkey_hash w.pubkey = .ok kh)
    (hscripts : ∀ kv ∈ outputs, get_script_pubkey kv.1 = .ok (scripts kv.1))
    (hsender : scripts w.pubkey = ownedScript kh)
    (hsum : fee + (outputs.map Prod.snd).sum < 2 ^ 64)
    (hbal : ((s.ownedUTXO kh).map (fun e => e.2.tx_out.value)).sum < 2 ^ 64) :
    (((s.ownedUTXO kh).map (fun e => e.2.tx_out.value)).sum <
        fee + (outputs.map Prod.snd).sum →
      s.make_transaction outputs fee = .error .InsufficientFunds)
    ∧ (fee + (outputs.map Prod.snd).sum ≤
        ((s.ownedUTXO kh).map (fun e => e.2.tx_out.value)).sum →
      s.make_transaction outputs fee = .ok
        ⟨1,
         (calculate_inputs (List.insertionSort utxoValueDescOrder (s.ownedUTXO kh))
            (fee + (outputs.map Prod.snd).sum)).1.map
           (fun op => ⟨op, ownedScript kh, 0xFFFFFFFF⟩),
         (if fee + (outputs.map Prod.snd).sum <
              (calculate_inputs (List.insertionSort utxoValueDescOrder (s.ownedUTXO kh))
                (fee + (outputs.map Prod.snd).sum)).2 then
            insertMap outputs w.pubkey
              ((calculate_inputs
                  (List.insertionSort utxoValueDescOrder (s.ownedUTXO kh))
                  (fee + (outputs.map Prod.snd).sum)).2 -
                (fee + (outputs.map Prod.snd).sum))
          else outputs).map (fun kv => (⟨kv.2, scripts kv.1⟩ : TransactionOutput)),
         0⟩)
    ∧ List.Sorted utxoValueDescOrder
        (List.insertionSort utxoValueDescOrder (s.ownedUTXO kh))
    ∧ (List.insertionSort utxoValueDescOrder (s.ownedUTXO kh)).Perm (s.ownedUTXO kh)
    ∧ (∃ n, n ≤ (List.insertionSort utxoValueDescOrder (s.ownedUTXO kh)).length ∧
        calculate_inputs (List.insertionSort utxoValueDescOrder (s.ownedUTXO kh))
            (fee + (outputs.map Prod.snd).sum) =
          (((List.insertionSort utxoValueDescOrder (s.ownedUTXO kh)).take n).map
              Prod.fst,
            0 + (((List.insertionSort utxoValueDescOrder (s.ownedUTXO kh)).take n).map
              (fun e => e.2.tx_out.value)).sum) ∧
        (fee + (outputs.map Prod.snd).sum ≤
            0 + (((List.insertionSort utxoValueDescOrder (s.ownedUTXO kh)).take n).map
              (fun e => e.2.tx_out.value)).sum ∨
          n = (List.insertionSort utxoValueDescOrder (s.ownedUTXO kh)).length) ∧
        (∀ m, 0 < m → m < n →
          0 + (((List.insertionSort utxoValueDescOrder (s.ownedUTXO kh)).take m).map
            (fun e => e.2.tx_out.value)).sum < fee + (outputs.map Prod.snd).sum))
    ∧ ((¬ ∃ kv ∈ outputs, kv.1 = w.pubkey) → ∀ c,
        insertMap outputs w.pubkey c = outputs ++ [(w.pubkey, c)])
    ∧ (∀ s2 : NodeState, s2.wallets.active = none →
        s2.make_transaction outputs fee = .error .WalletNotFound) := by
  refine ⟨?_, ?_, ?_, ?_, ?_, ?_, ?_⟩
  · intro hlt
    simp only [NodeState.make_transaction, hw]
    rw [calculate_total_value_insufficient s w kh outputs fee hw hkh hsum hlt]
  · intro hle
    exact make_transaction_ok s w kh scripts outputs fee hw hkh hscripts hsender
      hsum hbal hle
  · exact List.sorted_insertionSort utxoValueDescOrder (s.ownedUTXO kh)
  · exact List.perm_insertionSort utxoValueDescOrder (s.ownedUTXO kh)
  · obtain ⟨n, hn_le, heq, hor, hmid, hpos⟩ :=
      calculate_inputs_go_spec (fee + (outputs.map Prod.snd).sum)
        (List.insertionSort utxoValueDescOrder (s.ownedUTXO kh)) 0
        (by
          have hperm := List.perm_insertionSort utxoValueDescOrder (s.ownedUTXO kh)
          have := (hperm.map (fun e => e.2.tx_out.value)).sum_eq
          omega)
    exact ⟨n, hn_le, heq, hor, hmid⟩
  · intro hnot c
    apply insertMap_not_mem
    intro kv hkv hk
    exact hnot ⟨kv, hkv, hk⟩
  · intro s2 hs2
    simp only [NodeState.make_transaction, hs2]

/-- Witness for C1: a wallet holding one unspent output of 100000000 base
units pays 40000000 with a fee of 1000; the emitted transaction has one
input and two outputs, the payment and the 59999000 change. -/
theorem make_transaction_spec_witness :
    NodeState.make_transaction
      ⟨⟨[⟨"w", "1111111111111111111111111", "k", []⟩],
        some ⟨"w", "1111111111111111111111111", "k", []⟩⟩,
       ⟨[(⟨List.replicate 32 9, 0⟩,
          ⟨⟨100000000, ownedScript (List.replicate 20 0)⟩, List.replicate 32 2⟩)]⟩,
       [], [], [], [], fun _ => []⟩
      [("11111111111111111111111111", 40000000)] 1000 =
      .ok ⟨1,
        [⟨⟨List.replicate 32 9, 0⟩, ownedScript (List.replicate 20 0), 0xFFFFFFFF⟩],
        [⟨40000000, ownedScript (List.replicate 20 0)⟩,
         ⟨59999000, ownedScript (List.replicate 20 0)⟩], 0⟩ := by
  have h := (make_transaction_spec
    ⟨⟨[⟨"w", "1111111111111111111111111", "k", []⟩],
      some ⟨"w", "1111111111111111111111111", "k", []⟩⟩,
     ⟨[(⟨List.replicate 32 9, 0⟩,
        ⟨⟨100000000, ownedScript (List.replicate 20 0)⟩, List.replicate 32 2⟩)]⟩,
     [], [], [], [], fun _ => []⟩
    ⟨"w", "1111111111111111111111111", "k", []⟩
    (List.replicate 20 0)
    (fun _ => ownedScript (List.replicate 20 0))
    [("11111111111111111111111111", 40000000)] 1000
    rfl rfl
    (by
      intro kv hkv
      simp only [List.mem_singleton] at hkv
      subst hkv
      rfl)
    rfl (by decide) (by decide)).2.1 (by decide)
  exact h.trans (by rfl)

/-- Counterexample to C1 as stated: when the outputs map already pays the
sender pubkey (10 units here) and there is positive change, the emitted
transaction holds no additional change output; the single output pays the
sender only the change 99999990, and the requested value 10 is gone. -/
theorem make_transaction_overwrite_counterexample :
    NodeState.make_transaction
      ⟨⟨[⟨"w", "1111111111111111111111111", "k", []⟩],
        some ⟨"w", "1111111111111111111111111", "k", []⟩⟩,
       ⟨[(⟨List.replicate 32 9, 0⟩,
          ⟨⟨100000000, ownedScript (List.replicate 20 0)⟩, List.replicate 32 2⟩)]⟩,
       [], [], [], [], fun _ => []⟩
      [("1111111111111111111111111", 10)] 0 =
      .ok ⟨1,
        [⟨⟨List.replicate 32 9, 0⟩, ownedScript (List.replicate 20 0), 0xFFFFFFFF⟩],
        [⟨99999990, ownedScript (List.replicate 20 0)⟩], 0⟩
    ∧ ([(⟨99999990, ownedScript (List.replicate 20 0)⟩ : TransactionOutput)].length =
        [("1111111111111111111111111", 10)].length)
    ∧ (∀ o ∈ [(⟨99999990, ownedScript (List.replicate 20 0)⟩ : TransactionOutput)],
        o.value ≠ 10) := by
  refine ⟨by rfl, by decide, by decide⟩

/-- C10: when the outputs map already contains the sender pubkey and the
selected inputs leave positive change, the insert overwrites the requested
self-payment with the change amount: the emitted transaction carries one
output per requested entry (no additional output), with the sender entry
holding exactly the change. -/
theorem make_transaction_overwrite_spec (s : NodeState) (w : Wallet) (kh : List Nat)
    (scripts : String → List Nat) (outputs : List (String × Nat)) (fee : Nat)
    (hw : s.wallets.active = some w)
    (hkh : get_pubkey_hash w.pubkey = .ok kh)
    (hscripts : ∀ kv ∈ outputs, get_script_pubkey kv.1 = .ok (scripts kv.1))
    (hsender : scripts w.pubkey = ownedScript kh)
    (hsum : fee + (outputs.map Prod.snd).sum < 2 ^ 64)
    (hbal : ((s.ownedUTXO kh).map (fun e => e.2.tx_out.value)).sum < 2 ^ 64)
    (hle : fee + (outputs.map Prod.snd).sum ≤
      ((s.ownedUTXO kh).map (fun e => e.2.tx_out.value)).sum)
    (hmem : ∃ kv ∈ outputs, kv.1 = w.pubkey)
    (hchange : fee + (outputs.map Prod.snd).sum <
      (calculate_inputs (List.insertionSort utxoValueDescOrder (s.ownedUTXO kh))
        (fee + (outputs.map Prod.snd).sum)).2) :
    s.make_transaction outputs fee = .ok
      ⟨1,
       (calculate_inputs (List.insertionSort utxoValueDescOrder (s.ownedUTXO kh))
          (fee + (outputs.map Prod.snd).sum)).1.map
         (fun op => ⟨op, ownedScript kh, 0xFFFFFFFF⟩),
       outputs.map (fun kv =>
         if kv.1 = w.pubkey then
           (⟨(calculate_inputs (List.insertionSort utxoValueDescOrder (s.ownedUTXO kh))
                (fee + (outputs.map Prod.snd).sum)).2 -
              (fee + (outputs.map Prod.snd).sum), scripts w.pubkey⟩ :
             TransactionOutput)
         else ⟨kv.2, scripts kv.1⟩),
       0⟩
    ∧ (outputs.map (fun kv =>
         if kv.1 = w.pubkey then
           (⟨(calculate_inputs (List.insertionSort utxoValueDescOrder (s.ownedUTXO kh))
                (fee + (outputs.map Prod.snd).sum)).2 -
              (fee + (outputs.map Prod.snd).sum), scripts w.pubkey⟩ :
             TransactionOutput)
         else ⟨kv.2, scripts kv.1⟩)).length = outputs.length := by
  have h := make_transaction_ok s w kh scripts outputs fee hw hkh hscripts hsender
    hsum hbal hle
  rw [if_pos hchange] at h
  rw [insertMap_mem outputs w.pubkey _ hmem] at h
  rw [List.map_map] at h
  have hmapeq : outputs.map
      ((fun kv => ((⟨kv.2, scripts kv.1⟩ : TransactionOutput))) ∘
        (fun kv => if kv.1 = w.pubkey then
          (w.pubkey,
            (calculate_inputs (List.insertionSort utxoValueDescOrder (s.ownedUTXO kh))
              (fee + (outputs.map Prod.snd).sum)).2 -
              (fee + (outputs.map Prod.snd).sum))
        else kv)) =
      outputs.map (fun kv =>
        if kv.1 = w.pubkey then
          (⟨(calculate_inputs (List.insertionSort utxoValueDescOrder (s.ownedUTXO kh))
              (fee + (outputs.map Prod.snd).sum)).2 -
            (fee + (outputs.map Prod.snd).sum), scripts w.pubkey⟩ : TransactionOutput)
        else ⟨kv.2, scripts kv.1⟩) := by
    apply List.map_congr_left
    intro a ha
    by_cases hk : a.1 = w.pubkey
    · simp [hk]
    · simp [hk]
  rw [hmapeq] at h
  exact ⟨h, by simp⟩

/-- Witness for C10: the single requested output pays the sender 10 units;
the change 99999990 replaces it, so the transaction pays the sender only
the change. -/
theorem make_transaction_overwrite_spec_witness :
    NodeState.make_transaction
      ⟨⟨[⟨"w", "1111111111111111111111111", "k", []⟩],
        some ⟨"w", "1111111111111111111111111", "k", []⟩⟩,
       ⟨[(⟨List.replicate 32 9, 0⟩,
          ⟨⟨100000000, ownedScript (List.replicate 20 0)⟩, List.replicate 32 2⟩)]⟩,
       [], [], [], [], fun _ => []⟩
      [("1111111111111111111111111", 10)] 0 =
      .ok ⟨1,
        [⟨⟨List.replicate 32 9, 0⟩, ownedScript (List.replicate 20 0), 0xFFFFFFFF⟩],
        [⟨99999990, ownedScript (List.replicate 20 0)⟩], 0⟩
    ∧ ([(⟨99999990, ownedScript (List.replicate 20 0)⟩ : TransactionOutput)].length = 1) := by
  have h := (make_transaction_overwrite_spec
    ⟨⟨[⟨"w", "1111111111111111111111111", "k", []⟩],
      some ⟨"w", "1111111111111111111111111", "k", []⟩⟩,
     ⟨[(⟨List.replicate 32 9, 0⟩,
        ⟨⟨100000000, ownedScript (List.replicate 20 0)⟩, List.replicate 32 2⟩)]⟩,
     [], [], [], [], fun _ => []⟩
    ⟨"w", "1111111111111111111111111", "k", []⟩
    (List.replicate 20 0)
    (fun _ => ownedScript (List.replicate 20 0))
    [("1111111111111111111111111", 10)] 0
    rfl rfl
    (by
      intro kv hkv
      simp only [List.mem_singleton] at hkv
      subst hkv
      rfl)
    rfl (by decide) (by decide) (by decide)
    ⟨("1111111111111111111111111", 10), by decide, rfl⟩
    (by decide)).1
  exact ⟨h.trans (by rfl), rfl⟩

end BtcNode
